import Mathlib

/-!
Verification of the mmterm-rs rendering core (src/canvas.rs, src/pdb.rs,
src/main.rs) against its natural-language specification.

The Rust code is shallowly embedded: real-valued (`f32`) quantities are
modelled as exact rationals, `i32` arithmetic as `ℤ` with Rust's truncating
division (`Int.tdiv` / `Int.tmod`), an explicit saturating float-to-int
cast, and release-mode wrapping (`wrap32`) where the line loop's additions,
doubling and `abs` can overflow, and the `HashMap<(i32, i32), u8>` cell
store as an association list
with at most one entry per key (the serializer only ever looks cells up by
key, never iterates the map, so the list order is unobservable).
-/

/-! ## Machine-integer ranges (i32) -/

def i32Max : ℤ := 2 ^ 31 - 1

def i32Min : ℤ := -(2 ^ 31)

/-- Rust `f32::round`: round half away from zero, modelled on exact
rationals. -/
def rustRound (q : ℚ) : ℤ :=
  if 0 ≤ q then ⌊q + 1 / 2⌋ else -⌊-q + 1 / 2⌋

/-- Rust `as i32` on a float value: saturating conversion to the i32
range. -/
def i32sat (n : ℤ) : ℤ :=
  if n < i32Min then i32Min
  else if i32Max < n then i32Max
  else n

/-- Release-mode `i32` arithmetic wraps on overflow: reduce an exact
integer result into `[-2^31, 2^31)` modulo `2^32`. -/
def wrap32 (n : ℤ) : ℤ :=
  (n + 2 ^ 31) % 2 ^ 32 - 2 ^ 31

/-- Rust `i32::abs` with release-mode wrapping: `(i32::MIN).abs()` wraps
back to `i32::MIN`. -/
def wrapAbs (n : ℤ) : ℤ :=
  wrap32 |n|

/-! ## Canvas (src/canvas.rs) -/

/-- `Canvas::get_pixel_map`: map an integer sub-cell coordinate to a cell
address and a single-bit dot mask.  `Int.tdiv` / `Int.tmod` are Rust's `/`
and `%` on `i32` (truncation toward zero, remainder with the dividend's
sign); the source then adjusts both for negative inputs. -/
def get_pixel_map (x y : ℤ) : (ℤ × ℤ) × ℕ :=
  let char_x := Int.tdiv x 2
  let char_y := Int.tdiv y 4
  let sub_x := Int.tmod x 2
  let sub_y := Int.tmod y 4
  let sub_x := if sub_x < 0 then sub_x + 2 else sub_x
  let sub_y := if sub_y < 0 then sub_y + 4 else sub_y
  let char_x := if x < 0 ∧ Int.tmod x 2 ≠ 0 then char_x - 1 else char_x
  let char_y := if y < 0 ∧ Int.tmod y 4 ≠ 0 then char_y - 1 else char_y
  let mask : ℕ :=
    if sub_x = 0 ∧ sub_y = 0 then 0x01
    else if sub_x = 0 ∧ sub_y = 1 then 0x02
    else if sub_x = 0 ∧ sub_y = 2 then 0x04
    else if sub_x = 0 ∧ sub_y = 3 then 0x40
    else if sub_x = 1 ∧ sub_y = 0 then 0x08
    else if sub_x = 1 ∧ sub_y = 1 then 0x10
    else if sub_x = 1 ∧ sub_y = 2 then 0x20
    else if sub_x = 1 ∧ sub_y = 3 then 0x80
    else 0
  ((char_x, char_y), mask)

/-- The rasterizer state: the sparse cell-mask store plus the tracked
bounding rectangle, exactly the fields of `struct Canvas`. -/
structure Canvas where
  grid : List ((ℤ × ℤ) × ℕ)
  min_x : ℤ
  max_x : ℤ
  min_y : ℤ
  max_y : ℤ
deriving DecidableEq

/-- `Canvas::new`. -/
def Canvas.new : Canvas :=
  { grid := [], min_x := i32Max, max_x := i32Min, min_y := i32Max, max_y := i32Min }

/-- `Canvas::clear`. -/
def Canvas.clear (_c : Canvas) : Canvas := Canvas.new

/-- `self.grid.entry((cx, cy)).or_insert(0) |= mask` on the association-list
model of the `HashMap`: modify the entry in place when the key is present,
append a fresh entry otherwise. -/
def orInsert (g : List ((ℤ × ℤ) × ℕ)) (k : ℤ × ℤ) (m : ℕ) : List ((ℤ × ℤ) × ℕ) :=
  match g with
  | [] => [(k, Nat.lor 0 m)]
  | (k1, m1) :: rest =>
      if k1 = k then (k1, Nat.lor m1 m) :: rest else (k1, m1) :: orInsert rest k m

/-- The integer core of `Canvas::set`: everything after the two rounding
casts (`let ix = x.round() as i32; let iy = y.round() as i32`). -/
def Canvas.setPix (c : Canvas) (ix iy : ℤ) : Canvas :=
  let pm := get_pixel_map ix iy
  let cx := pm.1.1
  let cy := pm.1.2
  let mask := pm.2
  { grid := orInsert c.grid (cx, cy) mask
    min_x := if cx < c.min_x then cx else c.min_x
    max_x := if cx > c.max_x then cx else c.max_x
    min_y := if cy < c.min_y then cy else c.min_y
    max_y := if cy > c.max_y then cy else c.max_y }

/-- `Canvas::set`: round each coordinate (saturating `as i32` cast), then
run the integer core. -/
def Canvas.set (c : Canvas) (x y : ℚ) : Canvas :=
  c.setPix (i32sat (rustRound x)) (i32sat (rustRound y))

/-! ### The Bresenham stepping loop of `Canvas::line`

The `loop` is embedded as structural recursion on a fuel argument.  All
loop arithmetic (`2 * err`, `err += dy`, `err += dx`, `x += sx`,
`y += sy`) is `i32` arithmetic in the source and wraps on overflow in
release mode, so each result goes through `wrap32`.  The returned Bool
records whether the loop exited through its `break` (`true`) or ran out of
fuel (`false`); the point list collects the argument of every `set` call,
in order.  The termination theorem for claim C10 proves the fuel is never
exhausted when the endpoint coordinates are small enough that no
intermediate value overflows; the counterexamples for claims C9/C10 show
a saturated endpoint for which the loop state is a fixed point, so no
amount of fuel completes the run. -/
def bresRun (X2 Y2 dx dy sx sy : ℤ) :
    ℕ → ℤ → ℤ → ℤ → List (ℤ × ℤ) × Bool
  | 0, _, _, _ => ([], false)
  | fuel + 1, x, y, err =>
      if x = X2 ∧ y = Y2 then ([(x, y)], true)
      else
        let e2 := wrap32 (2 * err)
        let err1 := if dy ≤ e2 then wrap32 (err + dy) else err
        let x1 := if dy ≤ e2 then wrap32 (x + sx) else x
        let err2 := if e2 ≤ dx then wrap32 (err1 + dx) else err1
        let y1 := if e2 ≤ dx then wrap32 (y + sy) else y
        let rest := bresRun X2 Y2 dx dy sx sy fuel x1 y1 err2
        ((x, y) :: rest.1, rest.2)

/-- `Canvas::line`: round the endpoints, run the Bresenham loop, and apply
`Canvas::set` to every stepped point in order.  The set-up arithmetic
(`x2 - x1`, `.abs()`, negation, `dx + dy`) is `i32` arithmetic and wraps
on overflow, hence the `wrap32`/`wrapAbs` around each step.  The fuel
bound is an artifact of the embedding: it covers every iteration of a
non-overflowing run (claim C10); on a run whose loop state repeats, the
embedded list is truncated where the source loop simply never returns. -/
def Canvas.line (c : Canvas) (qx1 qy1 qx2 qy2 : ℚ) : Canvas :=
  let X1 := i32sat (rustRound qx1)
  let Y1 := i32sat (rustRound qy1)
  let X2 := i32sat (rustRound qx2)
  let Y2 := i32sat (rustRound qy2)
  let dx := wrapAbs (wrap32 (X2 - X1))
  let dy := wrap32 (-(wrapAbs (wrap32 (Y2 - Y1))))
  let sx : ℤ := if X1 < X2 then 1 else -1
  let sy : ℤ := if Y1 < Y2 then 1 else -1
  let pts := (bresRun X2 Y2 dx dy sx sy (dx - dy + 1).toNat X1 Y1 (wrap32 (dx + dy))).1
  pts.foldl (fun c p => c.set (p.1 : ℚ) (p.2 : ℚ)) c

/-- `std::char::from_u32(n).unwrap_or(' ')`. -/
def charFromU32 (n : ℕ) : Char :=
  if n.isValidChar then Char.ofNat n else ' '

/-- The inclusive integer range `a..=b` as a list. -/
def intRange (a b : ℤ) : List ℤ :=
  (List.range (b - a + 1).toNat).map (fun i => a + (i : ℤ))

/-- `Canvas::frame`: serialize the bounding rectangle row by row,
accumulating into a string exactly as the nested `for` loops push
characters and `"\r\n"` row terminators. -/
def Canvas.frame (c : Canvas) : String :=
  if c.grid.isEmpty then "" else
  (intRange c.min_y c.max_y).foldl (fun output y =>
    ((intRange c.min_x c.max_x).foldl (fun output x =>
      output.push
        (match c.grid.lookup (x, y) with
         | some mask => charFromU32 (0x2800 + mask)
         | none => ' ')) output) ++ "\r\n") ""

/-! ## Specification-side rasterizer descriptions

These definitions follow the spec's words (block of glyphs over the
bounding rectangle; the glyph of a present cell is the base code point
0x2800 plus its mask; absent cells are spaces; rows end in CR+LF), to be
compared with `Canvas.frame` above. -/

/-- One row of the glyph block, as the spec describes it. -/
def specRow (c : Canvas) (y : ℤ) : String :=
  String.mk ((intRange c.min_x c.max_x).map (fun x =>
    match c.grid.lookup (x, y) with
    | some mask => Char.ofNat (0x2800 + mask)
    | none => ' ')) ++ "\r\n"

/-- The whole glyph block, as the spec describes it. -/
def specFrame (c : Canvas) : String :=
  if c.grid.isEmpty then "" else
  String.join ((intRange c.min_y c.max_y).map (specRow c))

/-- The cell addresses currently present in the sparse store. -/
def Canvas.keys (c : Canvas) : List (ℤ × ℤ) :=
  c.grid.map Prod.fst

/-- Minimum of a list of integers (`i32Max` for the empty list, matching
the rasterizer's empty sentinel). -/
def listMinZ : List ℤ → ℤ
  | [] => i32Max
  | x :: xs => xs.foldl min x

/-- Maximum of a list of integers (`i32Min` for the empty list). -/
def listMaxZ : List ℤ → ℤ
  | [] => i32Min
  | x :: xs => xs.foldl max x

/-- The eight single-bit dot masks of `get_pixel_map`'s lookup table, in
source order. -/
def maskTable : List ℕ := [0x01, 0x02, 0x04, 0x40, 0x08, 0x10, 0x20, 0x80]

/-- A rasterizer operation of the public interface. -/
inductive CanvasOp where
  | clear : CanvasOp
  | set (x y : ℚ) : CanvasOp
  | line (x1 y1 x2 y2 : ℚ) : CanvasOp

/-- Apply one rasterizer operation. -/
def applyOp (c : Canvas) : CanvasOp → Canvas
  | .clear => c.clear
  | .set x y => c.set x y
  | .line x1 y1 x2 y2 => c.line x1 y1 x2 y2

/-- The canvas after a sequence of operations on a fresh rasterizer. -/
def runOps (ops : List CanvasOp) : Canvas :=
  ops.foldl applyOp Canvas.new

/-- The canvas invariant maintained by every operation: the tracked
bounding rectangle is the exact min/max over present cell addresses
(`listMinZ` / `listMaxZ` of the empty list are exactly the
`i32::MAX` / `i32::MIN` sentinels, so the equations also say the rectangle
is the empty sentinel when the store is empty), every present cell address
lies in the range reachable from a saturated `i32` sub-cell coordinate,
and every stored mask is a nonzero 8-bit value. -/
def CanvasInv (c : Canvas) : Prop :=
  c.min_x = listMinZ (c.grid.map (fun e => e.1.1)) ∧
  c.max_x = listMaxZ (c.grid.map (fun e => e.1.1)) ∧
  c.min_y = listMinZ (c.grid.map (fun e => e.1.2)) ∧
  c.max_y = listMaxZ (c.grid.map (fun e => e.1.2)) ∧
  (∀ e ∈ c.grid,
    -(2 ^ 30) ≤ e.1.1 ∧ e.1.1 ≤ 2 ^ 30 ∧ -(2 ^ 30) ≤ e.1.2 ∧ e.1.2 ≤ 2 ^ 30 ∧
    0 < e.2 ∧ e.2 < 256)

/-! ## 3D vectors and matrices (glam `Vec3` / `Mat3`, as used by main.rs)

`glam::Mat3` is column-major; `Mat3 * Vec3` is
`x_axis * v.x + y_axis * v.y + z_axis * v.z`. -/

structure V3 where
  x : ℚ
  y : ℚ
  z : ℚ
deriving DecidableEq

def V3.zero : V3 := ⟨0, 0, 0⟩

def vadd (a b : V3) : V3 := ⟨a.x + b.x, a.y + b.y, a.z + b.z⟩

def vsub (a b : V3) : V3 := ⟨a.x - b.x, a.y - b.y, a.z - b.z⟩

def vscale (k : ℚ) (a : V3) : V3 := ⟨k * a.x, k * a.y, k * a.z⟩

/-- `glam::Vec3 / f32` (componentwise). -/
def vdiv (a : V3) (k : ℚ) : V3 := ⟨a.x / k, a.y / k, a.z / k⟩

/-- Componentwise minimum (`glam::Vec3::min`). -/
def vmin (a b : V3) : V3 := ⟨min a.x b.x, min a.y b.y, min a.z b.z⟩

/-- Componentwise maximum (`glam::Vec3::max`). -/
def vmax (a b : V3) : V3 := ⟨max a.x b.x, max a.y b.y, max a.z b.z⟩

def vsplat (k : ℚ) : V3 := ⟨k, k, k⟩

/-- A 3x3 matrix as its three columns (glam is column-major). -/
structure M3 where
  colX : V3
  colY : V3
  colZ : V3

/-- `glam::Mat3 * glam::Vec3`. -/
def M3.mulVec (m : M3) (v : V3) : V3 :=
  vadd (vadd (vscale v.x m.colX) (vscale v.y m.colY)) (vscale v.z m.colZ)

/-- `glam::Mat3 * glam::Mat3` (column-wise application). -/
def matMul (a b : M3) : M3 :=
  ⟨a.mulVec b.colX, a.mulVec b.colY, a.mulVec b.colZ⟩

/-- `glam::Mat3::from_rotation_x`, with the cosine and sine of the angle as
explicit parameters (trigonometry itself plays no role in the claims). -/
def fromRotationX (c s : ℚ) : M3 :=
  ⟨⟨1, 0, 0⟩, ⟨0, c, s⟩, ⟨0, -s, c⟩⟩

/-- `glam::Mat3::from_rotation_y`. -/
def fromRotationY (c s : ℚ) : M3 :=
  ⟨⟨c, 0, -s⟩, ⟨0, 1, 0⟩, ⟨s, 0, c⟩⟩

/-! ## Atom / Model data (src/pdb.rs) -/

structure Atom where
  serial : ℤ
  name : String
  res_name : String
  chain_id : Char
  res_seq : ℤ
  pos : V3
deriving DecidableEq

def defaultAtom : Atom := ⟨0, "", "", ' ', 0, V3.zero⟩

structure Model where
  atoms : List Atom
  connections : List Bool
  center : V3

/-- `Model::new`. -/
def Model.new : Model := ⟨[], [], V3.zero⟩

def protein_bb : List String := ["N", "CA", "C"]

def nucleic_bb : List String := ["P", "O5'", "C5'", "C4'", "C3'", "O3'"]

/-- The backbone-name filter applied by `read_pdb` before any atom enters a
model (`protein_bb.contains(&name) || nucleic_bb.contains(&name)` on the
trimmed atom name). -/
def keepsAtom (a : Atom) : Bool :=
  protein_bb.contains a.name.trim || nucleic_bb.contains a.name.trim

/-- The atoms `read_pdb` accumulates into a model block: those whose
(trimmed) name is in one of the two backbone tables. -/
def backboneFilter (atoms : List Atom) : List Atom :=
  atoms.filter keepsAtom

/-- The bond test of `process_model`: same chain and (same residue sequence
number, or the next atom's is exactly one more). -/
def atomsConnected (curr next : Atom) : Bool :=
  if curr.chain_id = next.chain_id then
    if curr.res_seq = next.res_seq then true
    else if next.res_seq = curr.res_seq + 1 then true
    else false
  else false

/-- The connection loop of `process_model`: one Bool per consecutive pair
(the loop pushes `connected(atoms[i], atoms[i+1])` for i below `len - 1`). -/
def connectionsOf : List Atom → List Bool
  | [] => []
  | [_] => []
  | a :: b :: rest => atomsConnected a b :: connectionsOf (b :: rest)

/-- `process_model`: compute the geometric center, re-center every atom,
then compute the connection flags. -/
def processModel (atoms : List Atom) : Model :=
  if atoms.isEmpty then Model.new
  else
    let sum := atoms.foldl (fun s a => vadd s a.pos) V3.zero
    let center := vdiv sum (atoms.length : ℚ)
    let centered := atoms.map (fun a => { a with pos := vsub a.pos center })
    { atoms := centered, connections := connectionsOf centered, center := center }

/-! ## View setup and per-frame transform (src/main.rs) -/

/-- `f32::MAX` as an exact rational; `f32::MIN` is its negation. -/
def f32Max : ℚ := 2 ^ 128 - 2 ^ 104

/-- `get_bounds`: componentwise bounding box of a model's atom positions,
folded from the `f32::MAX` / `f32::MIN` sentinels; `(ZERO, ZERO)` for a
model with no atoms. -/
def get_bounds (m : Model) : V3 × V3 :=
  if m.atoms.isEmpty then (V3.zero, V3.zero)
  else m.atoms.foldl (fun mm a => (vmin mm.1 a.pos, vmax mm.2 a.pos))
    (vsplat f32Max, vsplat (-f32Max))

/-- The zoom factor and fixed clip rectangle main computes once at start-up
(lines 70–85 of main.rs). -/
structure ViewSetup where
  zoom : ℚ
  clip_x_min : ℚ
  clip_x_max : ℚ
  clip_y_min : ℚ
  clip_y_max : ℚ

def setupView (model0 : Model) (size : ℚ) : ViewSetup :=
  let bounds := get_bounds model0
  let min_pt := bounds.1
  let max_pt := bounds.2
  let x_diff := max_pt.x - min_pt.x
  let y_diff := max_pt.y - min_pt.y
  let box_bound := max x_diff y_diff + 2
  let zoom := size / box_bound
  { zoom := zoom
    clip_x_min := zoom * (min_pt.x - (box_bound - x_diff) / 2)
    clip_x_max := zoom * (max_pt.x + (box_bound - x_diff) / 2)
    clip_y_min := zoom * (min_pt.y - (box_bound - y_diff) / 2)
    clip_y_max := zoom * (max_pt.y + (box_bound - y_diff) / 2) }

/-- Minimum of a rational list, head-seeded (0 for the empty list). -/
def listMinQ : List ℚ → ℚ
  | [] => 0
  | x :: xs => xs.foldl min x

/-- Maximum of a rational list, head-seeded (0 for the empty list). -/
def listMaxQ : List ℚ → ℚ
  | [] => 0
  | x :: xs => xs.foldl max x

/-- The per-atom transform of the render loop (main.rs lines 192–200):
translate by `(trans_x, trans_y, 0)`, rotate about x, rotate about y, scale
by the current zoom.  The rotation matrices are passed through their cosine
and sine values. -/
def transformedPoint (rcx rsx rcy rsy zoom tx ty : ℚ) (pos : V3) : V3 :=
  let translation : V3 := ⟨tx, ty, 0⟩
  let p := vadd pos translation
  let p := (fromRotationX rcx rsx).mulVec p
  let p := (fromRotationY rcy rsy).mulVec p
  vscale zoom p

/-- The transform as the spec phrases it: one formula,
`zoom * (Ry * (Rx * (p + t)))` with the matrix product applied to the
translated point. -/
def specTransform (rcx rsx rcy rsy zoom tx ty : ℚ) (pos : V3) : V3 :=
  vscale zoom
    ((matMul (fromRotationY rcy rsy) (fromRotationX rcx rsx)).mulVec
      (vadd pos ⟨tx, ty, 0⟩))

/-- The clip test and bond filter of the render loop (main.rs lines
203–217): bond index i is drawn exactly when its flag is set and all eight
strict comparisons of the two transformed endpoints against the clip
rectangle pass.  Returns the drawn bond indices in order. -/
def drawnBonds (connections : List Bool) (pts : List V3) (v : ViewSetup) : List ℕ :=
  (List.range connections.length).filter (fun i =>
    connections.getD i false &&
    (let p1 := pts.getD i V3.zero
     let p2 := pts.getD (i + 1) V3.zero
     decide (p1.x > v.clip_x_min) && decide (p1.x < v.clip_x_max) &&
     decide (p1.y > v.clip_y_min) && decide (p1.y < v.clip_y_max) &&
     decide (p2.x > v.clip_x_min) && decide (p2.x < v.clip_x_max) &&
     decide (p2.y > v.clip_y_min) && decide (p2.y < v.clip_y_max)))

/-- The spec's "strictly inside the clip rectangle on both axes". -/
def strictlyInside (v : ViewSetup) (p : V3) : Prop :=
  v.clip_x_min < p.x ∧ p.x < v.clip_x_max ∧ v.clip_y_min < p.y ∧ p.y < v.clip_y_max

/-- The spec's bond-inference rule, as a proposition on two consecutive
atoms. -/
def bondRule (a b : Atom) : Prop :=
  a.chain_id = b.chain_id ∧ (a.res_seq = b.res_seq ∨ b.res_seq = a.res_seq + 1)
-- C3
/-- Claim C3: the per-atom transform equals
`zoom * (Ry(rot_y) * (Rx(rot_x) * (p + (trans_x, trans_y, 0))))`:
translation first, then the x-axis rotation, then the y-axis rotation,
then uniform scaling, for every position and view state. -/
theorem transformed_point_eq_zoom_rotY_rotX_translate
    (rcx rsx rcy rsy zoom tx ty : ℚ) (pos : V3) :
    transformedPoint rcx rsx rcy rsy zoom tx ty pos =
      specTransform rcx rsx rcy rsy zoom tx ty pos := by
  simp only [transformedPoint, specTransform, fromRotationX, fromRotationY,
    matMul, M3.mulVec, vadd, vscale, V3.mk.injEq]
  refine ⟨by ring, by ring, by ring⟩

-- C2
/-- Claim C2: bond index i is drawn exactly when its flag is set and both
transformed endpoints are strictly inside the clip rectangle on both axes;
in particular a bond with an endpoint outside or on the boundary produces
no segment. -/
theorem bond_drawn_iff_flag_and_strictly_inside
    (connections : List Bool) (pts : List V3) (v : ViewSetup) (i : ℕ)
    (h : i < connections.length) :
    i ∈ drawnBonds connections pts v ↔
      connections.getD i false = true ∧
      strictlyInside v (pts.getD i V3.zero) ∧
      strictlyInside v (pts.getD (i + 1) V3.zero) := by
  simp only [drawnBonds, List.mem_filter, List.mem_range, Bool.and_eq_true,
    decide_eq_true_eq]
  unfold strictlyInside
  tauto

/-- Closed instance of the bond-drawing rule: one bond with both endpoints
strictly inside a concrete clip rectangle is drawn. -/
theorem bond_drawn_iff_witness :
    0 ∈ drawnBonds [true] [V3.zero, ⟨1, 1, 0⟩] ⟨1, -2, 2, -2, 2⟩ :=
  (bond_drawn_iff_flag_and_strictly_inside [true] [V3.zero, ⟨1, 1, 0⟩]
      ⟨1, -2, 2, -2, 2⟩ 0 (by norm_num)).mpr
    ⟨by norm_num, by norm_num [strictlyInside, V3.zero], by norm_num [strictlyInside]⟩

-- C8 helpers
lemma connectionsOf_length : ∀ atoms : List Atom,
    (connectionsOf atoms).length = atoms.length - 1
  | [] => rfl
  | [_] => rfl
  | a :: b :: rest => by
      show (atomsConnected a b :: connectionsOf (b :: rest)).length =
        (a :: b :: rest).length - 1
      have ih := connectionsOf_length (b :: rest)
      simp only [List.length_cons] at ih ⊢
      omega

lemma connectionsOf_getD : ∀ (atoms : List Atom) (i : ℕ), i + 1 < atoms.length →
    (connectionsOf atoms).getD i false =
      atomsConnected (atoms.getD i defaultAtom) (atoms.getD (i + 1) defaultAtom)
  | [], i, h => by simp at h
  | [_], i, h => by simp at h
  | _ :: _ :: _, 0, _ => rfl
  | a :: b :: rest, i + 1, h => by
      have ih := connectionsOf_getD (b :: rest) i (by simpa using h)
      rw [show connectionsOf (a :: b :: rest) =
        atomsConnected a b :: connectionsOf (b :: rest) from rfl]
      simpa using ih

lemma atomsConnected_iff (a b : Atom) : atomsConnected a b = true ↔ bondRule a b := by
  unfold atomsConnected bondRule
  split_ifs with h1 h2 h3 <;> simp_all

lemma connectionsOf_map_pos (c : V3) : ∀ atoms : List Atom,
    connectionsOf (atoms.map (fun a => { a with pos := vsub a.pos c })) =
      connectionsOf atoms
  | [] => rfl
  | [_] => rfl
  | a :: b :: rest => by
      have ih := connectionsOf_map_pos c (b :: rest)
      show atomsConnected { a with pos := vsub a.pos c } { b with pos := vsub b.pos c } ::
          connectionsOf ((b :: rest).map (fun a => { a with pos := vsub a.pos c })) =
        atomsConnected a b :: connectionsOf (b :: rest)
      rw [ih]
      rfl

lemma processModel_connections (atoms : List Atom) (h : atoms ≠ []) :
    (processModel atoms).connections = connectionsOf atoms := by
  have hne : atoms.isEmpty = false := by simpa [List.isEmpty_iff] using h
  simp only [processModel, hne, Bool.false_eq_true, if_false]
  exact connectionsOf_map_pos _ atoms

/-- Claim C8: for a nonempty atom list, the connection sequence of the
processed model has length n − 1, flag i holds exactly when atoms i and
i + 1 satisfy the chain/residue bond rule, and every atom passing the
read filter has a backbone name. -/
theorem connections_length_and_rule (atoms : List Atom) (h : atoms ≠ []) :
    (processModel atoms).connections.length = atoms.length - 1 ∧
    (∀ i : ℕ, i + 1 < atoms.length →
      ((processModel atoms).connections.getD i false = true ↔
        bondRule (atoms.getD i defaultAtom) (atoms.getD (i + 1) defaultAtom))) ∧
    (∀ a ∈ backboneFilter atoms, keepsAtom a = true) := by
  rw [processModel_connections atoms h]
  refine ⟨connectionsOf_length atoms, ?_, ?_⟩
  · intro i hi
    rw [connectionsOf_getD atoms i hi, atomsConnected_iff]
  · intro a ha
    exact (List.mem_filter.mp ha).2

/-- Closed instance of the bond rule on a two-atom chain with sequential
residues: the single connection flag is set. -/
theorem connections_length_and_rule_witness :
    (processModel [⟨1, "CA", "ALA", 'A', 1, ⟨0, 0, 0⟩⟩, ⟨2, "CA", "ALA", 'A', 2, ⟨1, 0, 0⟩⟩]).connections.length = 1 ∧
    ((processModel [⟨1, "CA", "ALA", 'A', 1, ⟨0, 0, 0⟩⟩, ⟨2, "CA", "ALA", 'A', 2, ⟨1, 0, 0⟩⟩]).connections.getD 0 false = true ↔
      bondRule ⟨1, "CA", "ALA", 'A', 1, ⟨0, 0, 0⟩⟩ ⟨2, "CA", "ALA", 'A', 2, ⟨1, 0, 0⟩⟩) := by
  have h := connections_length_and_rule
    [⟨1, "CA", "ALA", 'A', 1, ⟨0, 0, 0⟩⟩, ⟨2, "CA", "ALA", 'A', 2, ⟨1, 0, 0⟩⟩]
    (List.cons_ne_nil _ _)
  refine ⟨h.1, ?_⟩
  have h2 := h.2.1 0 (by norm_num)
  simpa using h2

-- Arithmetic characterizations of Rust's truncating `/` and `%`
lemma tdiv_eq_if (a b : ℤ) (hb : 0 ≤ b) :
    a.tdiv b = if 0 ≤ a then a / b else -(-a / b) := by
  rcases le_or_lt 0 a with h | h
  · rw [if_pos h, Int.tdiv_eq_ediv h hb]
  · rw [if_neg (not_le.mpr h)]
    have h2 : a.tdiv b = -((-a).tdiv b) := by rw [Int.neg_tdiv, neg_neg]
    rw [h2, Int.tdiv_eq_ediv (by omega) hb]

lemma tmod_eq_if (a b : ℤ) (hb : 0 ≤ b) :
    a.tmod b = if 0 ≤ a then a % b else -(-a % b) := by
  rcases le_or_lt 0 a with h | h
  · rw [if_pos h, Int.tmod_eq_emod h hb]
  · rw [if_neg (not_le.mpr h)]
    have h2 : a.tmod b = -((-a).tmod b) := by
      rw [Int.tmod_def, Int.tmod_def, Int.neg_tdiv]
      ring
    rw [h2, Int.tmod_eq_emod (by omega) hb]

/-- The negative-input adjustment of `get_pixel_map` turns Rust's
truncating division into floor division of the sub-cell coordinate by the
cell extent (2 columns, 4 rows). -/
lemma get_pixel_map_cell (x y : ℤ) :
    (get_pixel_map x y).1 = (Int.fdiv x 2, Int.fdiv y 4) := by
  unfold get_pixel_map
  have hx : Int.fdiv x 2 = x / 2 := Int.fdiv_eq_ediv x (by norm_num)
  have hy : Int.fdiv y 4 = y / 4 := Int.fdiv_eq_ediv y (by norm_num)
  have hdx := tdiv_eq_if x 2 (by norm_num)
  have hdy := tdiv_eq_if y 4 (by norm_num)
  have hmx := tmod_eq_if x 2 (by norm_num)
  have hmy := tmod_eq_if y 4 (by norm_num)
  simp only [Prod.mk.injEq]
  constructor
  · rw [hx, hdx, hmx]
    split_ifs <;> omega
  · rw [hy, hdy, hmy]
    split_ifs <;> omega

lemma rustRound_intCast (n : ℤ) : rustRound (n : ℚ) = n := by
  unfold rustRound
  have h0 : ⌊(1 / 2 : ℚ)⌋ = 0 := by norm_num
  rcases le_or_lt 0 (n : ℚ) with h | h
  · rw [if_pos h, Int.floor_int_add, h0, add_zero]
  · rw [if_neg (not_le.mpr h), show -(n : ℚ) = ((-n : ℤ) : ℚ) by push_cast; ring,
      Int.floor_int_add, h0, add_zero, neg_neg]

lemma rustRound_neg_two_fifths : rustRound (-2 / 5 : ℚ) = 0 := by
  unfold rustRound
  rw [if_neg (by norm_num)]
  norm_num [Int.floor_eq_iff]

lemma rustRound_two_fifths : rustRound (2 / 5 : ℚ) = 0 := by
  unfold rustRound
  rw [if_pos (by norm_num)]
  norm_num [Int.floor_eq_iff]

lemma rustRound_nineteen_tenths : rustRound (19 / 10 : ℚ) = 2 := by
  unfold rustRound
  rw [if_pos (by norm_num)]
  rw [show (19 / 10 + 1 / 2 : ℚ) = 12 / 5 by norm_num]
  rw [Int.floor_eq_iff]
  constructor <;> norm_num

lemma rustRound_zero : rustRound (0 : ℚ) = 0 := by
  rw [show (0 : ℚ) = ((0 : ℤ) : ℚ) by norm_num, rustRound_intCast]

lemma rustRound_one : rustRound (1 : ℚ) = 1 := by
  rw [show (1 : ℚ) = ((1 : ℤ) : ℚ) by norm_num, rustRound_intCast]

lemma rustRound_two : rustRound (2 : ℚ) = 2 := by
  rw [show (2 : ℚ) = ((2 : ℤ) : ℚ) by norm_num, rustRound_intCast]

lemma rustRound_neg_one : rustRound (-1 : ℚ) = -1 := by
  rw [show (-1 : ℚ) = ((-1 : ℤ) : ℚ) by norm_num, rustRound_intCast]

/-- Claim C1 (amended): `set` rounds each coordinate to the nearest integer
sub-cell coordinate (half away from zero) and then maps it to a cell
address by floor division (cell width 2 sub-columns, height 4 sub-rows).
Of the listed inputs −1, −0.4, 0, 0.4, 1, 1.9, 2, the input −1 lands in
cell column −1, while −0.4 rounds to 0 and therefore lands in cell column
0 (not −1, as the original claim stated). -/
theorem set_maps_rounded_subcell_by_floor_division :
    (∀ x y : ℤ, (get_pixel_map x y).1 = (Int.fdiv x 2, Int.fdiv y 4)) ∧
    (Canvas.new.set (-1) 0).keys = [(-1, 0)] ∧
    (Canvas.new.set (-2 / 5) 0).keys = [(0, 0)] ∧
    (Canvas.new.set 0 0).keys = [(0, 0)] ∧
    (Canvas.new.set (2 / 5) 0).keys = [(0, 0)] ∧
    (Canvas.new.set 1 0).keys = [(0, 0)] ∧
    (Canvas.new.set (19 / 10) 0).keys = [(1, 0)] ∧
    (Canvas.new.set 2 0).keys = [(1, 0)] := by
  refine ⟨get_pixel_map_cell, ?_, ?_, ?_, ?_, ?_, ?_, ?_⟩
  · rw [Canvas.set, rustRound_neg_one, rustRound_zero]; decide
  · rw [Canvas.set, rustRound_neg_two_fifths, rustRound_zero]; decide
  · rw [Canvas.set, rustRound_zero]; decide
  · rw [Canvas.set, rustRound_two_fifths, rustRound_zero]; decide
  · rw [Canvas.set, rustRound_one, rustRound_zero]; decide
  · rw [Canvas.set, rustRound_nineteen_tenths, rustRound_zero]; decide
  · rw [Canvas.set, rustRound_two, rustRound_zero]; decide

/-- Counterexample to claim C1 as stated: `set(−0.4, 0)` touches exactly
the cell (0, 0) — cell column 0 — and touches no cell in column −1. -/
theorem set_at_minus_two_fifths_touches_column_zero :
    (Canvas.new.set (-2 / 5) 0).keys = [(0, 0)] ∧
    ¬ ((-1, 0) ∈ (Canvas.new.set (-2 / 5) 0).keys) := by
  rw [Canvas.set, rustRound_neg_two_fifths, rustRound_zero]
  exact ⟨by decide, by decide⟩

-- C4 helpers: the sentinel-seeded fold of get_bounds computes list min/max
lemma foldl_min_seeded (x s : ℚ) (xs : List ℚ) (hx : x ≤ s) :
    (x :: xs).foldl min s = listMinQ (x :: xs) := by
  show xs.foldl min (min s x) = listMinQ (x :: xs)
  rw [min_eq_right hx]
  rfl

lemma foldl_max_seeded (x s : ℚ) (xs : List ℚ) (hx : s ≤ x) :
    (x :: xs).foldl max s = listMaxQ (x :: xs) := by
  show xs.foldl max (max s x) = listMaxQ (x :: xs)
  rw [max_eq_right hx]
  rfl

lemma get_bounds_fold (atoms : List Atom) (s1 s2 : V3) :
    atoms.foldl (fun mm a => (vmin mm.1 a.pos, vmax mm.2 a.pos)) (s1, s2) =
      (atoms.foldl (fun v a => vmin v a.pos) s1,
       atoms.foldl (fun v a => vmax v a.pos) s2) := by
  induction atoms generalizing s1 s2 with
  | nil => rfl
  | cons a rest ih => exact ih (vmin s1 a.pos) (vmax s2 a.pos)

lemma foldl_vmin_x (atoms : List Atom) (s : V3) :
    (atoms.foldl (fun v a => vmin v a.pos) s).x =
      atoms.foldl (fun q a => min q a.pos.x) s.x := by
  induction atoms generalizing s with
  | nil => rfl
  | cons a rest ih => exact ih (vmin s a.pos)

lemma foldl_vmin_y (atoms : List Atom) (s : V3) :
    (atoms.foldl (fun v a => vmin v a.pos) s).y =
      atoms.foldl (fun q a => min q a.pos.y) s.y := by
  induction atoms generalizing s with
  | nil => rfl
  | cons a rest ih => exact ih (vmin s a.pos)

lemma foldl_vmax_x (atoms : List Atom) (s : V3) :
    (atoms.foldl (fun v a => vmax v a.pos) s).x =
      atoms.foldl (fun q a => max q a.pos.x) s.x := by
  induction atoms generalizing s with
  | nil => rfl
  | cons a rest ih => exact ih (vmax s a.pos)

lemma foldl_vmax_y (atoms : List Atom) (s : V3) :
    (atoms.foldl (fun v a => vmax v a.pos) s).y =
      atoms.foldl (fun q a => max q a.pos.y) s.y := by
  induction atoms generalizing s with
  | nil => rfl
  | cons a rest ih => exact ih (vmax s a.pos)

lemma get_bounds_min_x (m : Model) (a0 : Atom) (rest : List Atom)
    (hm : m.atoms = a0 :: rest) (hb : |a0.pos.x| ≤ f32Max) :
    (get_bounds m).1.x = listMinQ (m.atoms.map (fun a => a.pos.x)) := by
  rw [get_bounds, hm]
  simp only [List.isEmpty_cons, if_false, Bool.false_eq_true]
  rw [get_bounds_fold]
  show ((a0 :: rest).foldl (fun v a => vmin v a.pos) (vsplat f32Max)).x = _
  rw [foldl_vmin_x, show (a0 :: rest).foldl (fun q a => min q a.pos.x) (vsplat f32Max).x =
    ((a0 :: rest).map (fun a => a.pos.x)).foldl min (vsplat f32Max).x by
      rw [List.foldl_map]]
  rw [List.map_cons, foldl_min_seeded _ _ _ (by rw [vsplat]; cases abs_le.mp hb; assumption)]

lemma get_bounds_min_y (m : Model) (a0 : Atom) (rest : List Atom)
    (hm : m.atoms = a0 :: rest) (hb : |a0.pos.y| ≤ f32Max) :
    (get_bounds m).1.y = listMinQ (m.atoms.map (fun a => a.pos.y)) := by
  rw [get_bounds, hm]
  simp only [List.isEmpty_cons, if_false, Bool.false_eq_true]
  rw [get_bounds_fold]
  show ((a0 :: rest).foldl (fun v a => vmin v a.pos) (vsplat f32Max)).y = _
  rw [foldl_vmin_y, show (a0 :: rest).foldl (fun q a => min q a.pos.y) (vsplat f32Max).y =
    ((a0 :: rest).map (fun a => a.pos.y)).foldl min (vsplat f32Max).y by
      rw [List.foldl_map]]
  rw [List.map_cons, foldl_min_seeded _ _ _ (by rw [vsplat]; cases abs_le.mp hb; assumption)]

lemma get_bounds_max_x (m : Model) (a0 : Atom) (rest : List Atom)
    (hm : m.atoms = a0 :: rest) (hb : |a0.pos.x| ≤ f32Max) :
    (get_bounds m).2.x = listMaxQ (m.atoms.map (fun a => a.pos.x)) := by
  rw [get_bounds, hm]
  simp only [List.isEmpty_cons, if_false, Bool.false_eq_true]
  rw [get_bounds_fold]
  show ((a0 :: rest).foldl (fun v a => vmax v a.pos) (vsplat (-f32Max))).x = _
  rw [foldl_vmax_x, show (a0 :: rest).foldl (fun q a => max q a.pos.x) (vsplat (-f32Max)).x =
    ((a0 :: rest).map (fun a => a.pos.x)).foldl max (vsplat (-f32Max)).x by
      rw [List.foldl_map]]
  rw [List.map_cons, foldl_max_seeded _ _ _ (by rw [vsplat]; cases abs_le.mp hb; assumption)]

lemma get_bounds_max_y (m : Model) (a0 : Atom) (rest : List Atom)
    (hm : m.atoms = a0 :: rest) (hb : |a0.pos.y| ≤ f32Max) :
    (get_bounds m).2.y = listMaxQ (m.atoms.map (fun a => a.pos.y)) := by
  rw [get_bounds, hm]
  simp only [List.isEmpty_cons, if_false, Bool.false_eq_true]
  rw [get_bounds_fold]
  show ((a0 :: rest).foldl (fun v a => vmax v a.pos) (vsplat (-f32Max))).y = _
  rw [foldl_vmax_y, show (a0 :: rest).foldl (fun q a => max q a.pos.y) (vsplat (-f32Max)).y =
    ((a0 :: rest).map (fun a => a.pos.y)).foldl max (vsplat (-f32Max)).y by
      rw [List.foldl_map]]
  rw [List.map_cons, foldl_max_seeded _ _ _ (by rw [vsplat]; cases abs_le.mp hb; assumption)]

/-- Claim C4: with width/height the bounding-box extents of the initial
model and `box_bound = max(width, height) + 2`, the initial zoom is
`size / box_bound` and the four fixed clip edges follow the
`zoom * (min − (box_bound − extent)/2)` / `zoom * (max + (box_bound −
extent)/2)` formulas per axis.  The hypotheses say the model is nonempty
and its head coordinates are finite `f32` values (below the `f32::MAX`
fold sentinel). -/
theorem initial_zoom_and_clip_bounds_formula (m : Model) (size : ℚ)
    (a0 : Atom) (rest : List Atom) (hm : m.atoms = a0 :: rest)
    (hbx : |a0.pos.x| ≤ f32Max) (hby : |a0.pos.y| ≤ f32Max) :
    (setupView m size).zoom =
      size / (max (listMaxQ (m.atoms.map (fun a => a.pos.x)) - listMinQ (m.atoms.map (fun a => a.pos.x)))
        (listMaxQ (m.atoms.map (fun a => a.pos.y)) - listMinQ (m.atoms.map (fun a => a.pos.y))) + 2) ∧
    (setupView m size).clip_x_min =
      (setupView m size).zoom * (listMinQ (m.atoms.map (fun a => a.pos.x)) -
        (max (listMaxQ (m.atoms.map (fun a => a.pos.x)) - listMinQ (m.atoms.map (fun a => a.pos.x)))
          (listMaxQ (m.atoms.map (fun a => a.pos.y)) - listMinQ (m.atoms.map (fun a => a.pos.y))) + 2 -
          (listMaxQ (m.atoms.map (fun a => a.pos.x)) - listMinQ (m.atoms.map (fun a => a.pos.x)))) / 2) ∧
    (setupView m size).clip_x_max =
      (setupView m size).zoom * (listMaxQ (m.atoms.map (fun a => a.pos.x)) +
        (max (listMaxQ (m.atoms.map (fun a => a.pos.x)) - listMinQ (m.atoms.map (fun a => a.pos.x)))
          (listMaxQ (m.atoms.map (fun a => a.pos.y)) - listMinQ (m.atoms.map (fun a => a.pos.y))) + 2 -
          (listMaxQ (m.atoms.map (fun a => a.pos.x)) - listMinQ (m.atoms.map (fun a => a.pos.x)))) / 2) ∧
    (setupView m size).clip_y_min =
      (setupView m size).zoom * (listMinQ (m.atoms.map (fun a => a.pos.y)) -
        (max (listMaxQ (m.atoms.map (fun a => a.pos.x)) - listMinQ (m.atoms.map (fun a => a.pos.x)))
          (listMaxQ (m.atoms.map (fun a => a.pos.y)) - listMinQ (m.atoms.map (fun a => a.pos.y))) + 2 -
          (listMaxQ (m.atoms.map (fun a => a.pos.y)) - listMinQ (m.atoms.map (fun a => a.pos.y)))) / 2) ∧
    (setupView m size).clip_y_max =
      (setupView m size).zoom * (listMaxQ (m.atoms.map (fun a => a.pos.y)) +
        (max (listMaxQ (m.atoms.map (fun a => a.pos.x)) - listMinQ (m.atoms.map (fun a => a.pos.x)))
          (listMaxQ (m.atoms.map (fun a => a.pos.y)) - listMinQ (m.atoms.map (fun a => a.pos.y))) + 2 -
          (listMaxQ (m.atoms.map (fun a => a.pos.y)) - listMinQ (m.atoms.map (fun a => a.pos.y)))) / 2) := by
  have h1 := get_bounds_min_x m a0 rest hm hbx
  have h2 := get_bounds_max_x m a0 rest hm hbx
  have h3 := get_bounds_min_y m a0 rest hm hby
  have h4 := get_bounds_max_y m a0 rest hm hby
  simp only [setupView]
  rw [h1, h2, h3, h4]
  exact ⟨rfl, rfl, rfl, rfl, rfl⟩

/-- Closed instance of the view-setup formulas for a concrete two-atom
model (extents 1 × 2, viewport 100): zoom 25 and the four clip edges. -/
theorem initial_zoom_and_clip_bounds_witness :
    (setupView ⟨[⟨1, "CA", "ALA", 'A', 1, ⟨0, 0, 0⟩⟩, ⟨2, "CA", "ALA", 'A', 2, ⟨1, 2, 0⟩⟩], [true], V3.zero⟩ 100).zoom = 25 ∧
    (setupView ⟨[⟨1, "CA", "ALA", 'A', 1, ⟨0, 0, 0⟩⟩, ⟨2, "CA", "ALA", 'A', 2, ⟨1, 2, 0⟩⟩], [true], V3.zero⟩ 100).clip_x_min = -75 / 2 ∧
    (setupView ⟨[⟨1, "CA", "ALA", 'A', 1, ⟨0, 0, 0⟩⟩, ⟨2, "CA", "ALA", 'A', 2, ⟨1, 2, 0⟩⟩], [true], V3.zero⟩ 100).clip_x_max = 125 / 2 ∧
    (setupView ⟨[⟨1, "CA", "ALA", 'A', 1, ⟨0, 0, 0⟩⟩, ⟨2, "CA", "ALA", 'A', 2, ⟨1, 2, 0⟩⟩], [true], V3.zero⟩ 100).clip_y_min = -25 ∧
    (setupView ⟨[⟨1, "CA", "ALA", 'A', 1, ⟨0, 0, 0⟩⟩, ⟨2, "CA", "ALA", 'A', 2, ⟨1, 2, 0⟩⟩], [true], V3.zero⟩ 100).clip_y_max = 75 := by
  have h := initial_zoom_and_clip_bounds_formula
    ⟨[⟨1, "CA", "ALA", 'A', 1, ⟨0, 0, 0⟩⟩, ⟨2, "CA", "ALA", 'A', 2, ⟨1, 2, 0⟩⟩], [true], V3.zero⟩
    100 ⟨1, "CA", "ALA", 'A', 1, ⟨0, 0, 0⟩⟩ [⟨2, "CA", "ALA", 'A', 2, ⟨1, 2, 0⟩⟩] rfl
    (by norm_num [f32Max]) (by norm_num [f32Max])
  obtain ⟨h1, h2, h3, h4, h5⟩ := h
  refine ⟨?_, ?_, ?_, ?_, ?_⟩
  · rw [h1]; norm_num [listMinQ, listMaxQ]
  · rw [h2, h1]; norm_num [listMinQ, listMaxQ]
  · rw [h3, h1]; norm_num [listMinQ, listMaxQ]
  · rw [h4, h1]; norm_num [listMinQ, listMaxQ]
  · rw [h5, h1]; norm_num [listMinQ, listMaxQ]

-- C5 helpers: characterizing the push/append folds of `frame`
lemma foldl_push_eq (l : List ℤ) (g : ℤ → Char) (s : String) :
    l.foldl (fun acc t => acc.push (g t)) s = s ++ ⟨l.map g⟩ := by
  induction l generalizing s with
  | nil => exact (String.append_empty s).symm
  | cons x xs ih =>
      show xs.foldl _ (s.push (g x)) = _
      rw [ih (s.push (g x)), show s.push (g x) = s ++ ⟨[g x]⟩ from rfl,
        String.append_assoc]
      rfl

lemma foldl_strAppend (l : List String) (s : String) :
    l.foldl (fun r t => r ++ t) s = s ++ String.join l := by
  induction l generalizing s with
  | nil => exact (String.append_empty s).symm
  | cons a rest ih =>
      show rest.foldl _ (s ++ a) = _
      rw [ih (s ++ a), String.append_assoc]
      congr 1
      show a ++ String.join rest = String.join (a :: rest)
      rw [show String.join (a :: rest) = rest.foldl (fun r t => r ++ t) ("" ++ a) from rfl,
        ih ("" ++ a), String.empty_append]

lemma join_cons (a : String) (l : List String) :
    String.join (a :: l) = a ++ String.join l := by
  rw [show String.join (a :: l) = l.foldl (fun r t => r ++ t) ("" ++ a) from rfl,
    foldl_strAppend, String.empty_append]

lemma foldl_append_join (l : List ℤ) (f : ℤ → String) (s : String) :
    l.foldl (fun acc t => acc ++ f t) s = s ++ String.join (l.map f) := by
  induction l generalizing s with
  | nil => exact (String.append_empty s).symm
  | cons x xs ih =>
      show xs.foldl _ (s ++ f x) = _
      rw [ih (s ++ f x), String.append_assoc, List.map_cons, join_cons]

lemma lookup_mem {l : List ((ℤ × ℤ) × ℕ)} {k : ℤ × ℤ} {m : ℕ}
    (h : l.lookup k = some m) : (k, m) ∈ l := by
  induction l with
  | nil => simp [List.lookup] at h
  | cons e rest ih =>
      obtain ⟨k1, m1⟩ := e
      simp only [List.lookup] at h
      by_cases hk : k == k1
      · rw [hk] at h
        injection h with h1
        subst h1
        have hkk : k = k1 := by simpa using hk
        subst hkk
        exact List.mem_cons_self _ _
      · rw [Bool.not_eq_true] at hk
        rw [hk] at h
        exact List.mem_cons_of_mem _ (ih h)

/-- Claim C5: `frame` returns exactly the spec's rectangular glyph block
(rows `min_y..=max_y`, columns `min_x..=max_x`; a present cell is the
character at code point 0x2800 + mask, an absent cell a space, each row
terminated by CR+LF), and returns the empty string on an empty rasterizer,
in particular immediately after `clear`.  The hypothesis is the mask-size
invariant maintained by every rasterizer operation (theorem for claim C9). -/
theorem frame_renders_bounding_block (c : Canvas)
    (hm : ∀ e ∈ c.grid, e.2 < 256) :
    c.frame = specFrame c ∧ (c.clear).frame = "" ∧ Canvas.new.frame = "" := by
  refine ⟨?_, rfl, rfl⟩
  unfold Canvas.frame specFrame
  by_cases h : c.grid.isEmpty
  · rw [if_pos h, if_pos h]
  · rw [if_neg h, if_neg h]
    have hfun : (fun (output : String) (y : ℤ) =>
        ((intRange c.min_x c.max_x).foldl (fun output x =>
          output.push
            (match c.grid.lookup (x, y) with
             | some mask => charFromU32 (0x2800 + mask)
             | none => ' ')) output) ++ "\r\n") =
        (fun (output : String) (y : ℤ) => output ++ specRow c y) := by
      funext output y
      rw [foldl_push_eq, String.append_assoc]
      congr 1
      unfold specRow
      congr 1
      congr 1
      apply List.map_congr_left
      intro x _
      cases hl : c.grid.lookup (x, y) with
      | none => rfl
      | some mask =>
          have hmem : ((x, y), mask) ∈ c.grid := lookup_mem hl
          have hlt : mask < 256 := hm _ hmem
          show charFromU32 (0x2800 + mask) = Char.ofNat (0x2800 + mask)
          unfold charFromU32
          rw [if_pos (Or.inl (by omega))]
    rw [hfun, foldl_append_join, String.empty_append]

/-- Closed instance of the frame serialization on a one-point canvas. -/
theorem frame_renders_bounding_block_witness :
    (Canvas.new.set 0 0).frame = specFrame (Canvas.new.set 0 0) ∧
    ((Canvas.new.set 0 0).clear).frame = "" ∧ Canvas.new.frame = "" :=
  frame_renders_bounding_block (Canvas.new.set 0 0)
    (by rw [Canvas.set, rustRound_zero]; decide)

-- C6/C9 helpers
lemma lor_lt_256 {a b : ℕ} (ha : a < 256) (hb : b < 256) : Nat.lor a b < 256 := by
  have h : (256 : ℕ) = 2 ^ 8 := by norm_num
  rw [h] at ha hb ⊢
  exact Nat.or_lt_two_pow ha hb

lemma lor_pos {a b : ℕ} (hb : 0 < b) : 0 < Nat.lor a b := by
  rcases Nat.eq_zero_or_pos (Nat.lor a b) with h | h
  · exfalso
    have h' : a ||| b = 0 := h
    have hbit : ∀ k, b.testBit k = false := by
      intro k
      have h1 : (a ||| b).testBit k = false := by rw [h']; simp
      simp only [Nat.testBit_lor, Bool.or_eq_false_iff] at h1
      exact h1.2
    have hz : b = 0 := Nat.eq_of_testBit_eq (fun k => by rw [hbit k]; simp)
    omega
  · exact h

lemma tmod_two_cases (x : ℤ) : x.tmod 2 = -1 ∨ x.tmod 2 = 0 ∨ x.tmod 2 = 1 := by
  rw [tmod_eq_if x 2 (by norm_num)]
  split_ifs <;> omega

lemma tmod_four_cases (y : ℤ) :
    y.tmod 4 = -3 ∨ y.tmod 4 = -2 ∨ y.tmod 4 = -1 ∨ y.tmod 4 = 0 ∨
    y.tmod 4 = 1 ∨ y.tmod 4 = 2 ∨ y.tmod 4 = 3 := by
  rw [tmod_eq_if y 4 (by norm_num)]
  split_ifs <;> omega

lemma get_pixel_map_mask_mem (x y : ℤ) : (get_pixel_map x y).2 ∈ maskTable := by
  unfold get_pixel_map
  rcases tmod_two_cases x with hx | hx | hx <;>
    rcases tmod_four_cases y with hy | hy | hy | hy | hy | hy | hy <;>
      simp [hx, hy, maskTable]

lemma get_pixel_map_mask_bounds (x y : ℤ) :
    0 < (get_pixel_map x y).2 ∧ (get_pixel_map x y).2 < 256 := by
  have h := get_pixel_map_mask_mem x y
  simp only [maskTable, List.mem_cons, List.not_mem_nil, or_false] at h
  rcases h with h | h | h | h | h | h | h | h <;> rw [h] <;> constructor <;> omega

lemma i32sat_range (n : ℤ) : i32Min ≤ i32sat n ∧ i32sat n ≤ i32Max := by
  unfold i32sat i32Min i32Max
  split_ifs <;> omega

lemma get_pixel_map_cell_range (x y : ℤ)
    (hx : i32Min ≤ x ∧ x ≤ i32Max) (hy : i32Min ≤ y ∧ y ≤ i32Max) :
    -(2 ^ 30) ≤ (get_pixel_map x y).1.1 ∧ (get_pixel_map x y).1.1 ≤ 2 ^ 30 ∧
    -(2 ^ 30) ≤ (get_pixel_map x y).1.2 ∧ (get_pixel_map x y).1.2 ≤ 2 ^ 30 := by
  rw [get_pixel_map_cell, Int.fdiv_eq_ediv x (by norm_num), Int.fdiv_eq_ediv y (by norm_num)]
  unfold i32Min i32Max at hx hy
  norm_num at hx hy ⊢
  omega

lemma orInsert_ne_nil (g : List ((ℤ × ℤ) × ℕ)) (k : ℤ × ℤ) (m : ℕ) :
    orInsert g k m ≠ [] := by
  cases g with
  | nil => simp [orInsert]
  | cons e rest =>
      obtain ⟨k1, m1⟩ := e
      unfold orInsert
      split_ifs <;> simp

lemma orInsert_map_fst (g : List ((ℤ × ℤ) × ℕ)) (k : ℤ × ℤ) (m : ℕ) :
    (orInsert g k m).map Prod.fst =
      if k ∈ g.map Prod.fst then g.map Prod.fst else g.map Prod.fst ++ [k] := by
  induction g with
  | nil => simp [orInsert]
  | cons e rest ih =>
      obtain ⟨k1, m1⟩ := e
      by_cases hk : k1 = k
      · subst hk
        simp [orInsert]
      · unfold orInsert
        rw [if_neg hk]
        simp only [List.map_cons]
        rw [ih]
        by_cases hmem : k ∈ rest.map Prod.fst
        · rw [if_pos hmem, if_pos (by simp [hmem])]
        · rw [if_neg hmem, if_neg (by simp [List.mem_cons, hmem, Ne.symm hk]), List.cons_append]

lemma orInsert_pres (g : List ((ℤ × ℤ) × ℕ)) (k : ℤ × ℤ) (m : ℕ)
    (P : ℤ × ℤ → Prop) (hg : ∀ e ∈ g, P e.1 ∧ 0 < e.2 ∧ e.2 < 256)
    (hk : P k) (hm : 0 < m ∧ m < 256) :
    ∀ e ∈ orInsert g k m, P e.1 ∧ 0 < e.2 ∧ e.2 < 256 := by
  induction g with
  | nil =>
      intro e he
      simp only [orInsert, List.mem_singleton] at he
      subst he
      refine ⟨hk, lor_pos hm.1, lor_lt_256 (by omega) hm.2⟩
  | cons e0 rest ih =>
      obtain ⟨k1, m1⟩ := e0
      intro e he
      have hhead := hg (k1, m1) (List.mem_cons_self _ _)
      unfold orInsert at he
      split_ifs at he with hkk
      · rcases List.mem_cons.mp he with h | h
        · subst h
          exact ⟨hhead.1, lor_pos hm.1, lor_lt_256 hhead.2.2 hm.2⟩
        · exact hg e (List.mem_cons_of_mem _ h)
      · rcases List.mem_cons.mp he with h | h
        · subst h
          exact hhead
        · exact ih (fun e2 he2 => hg e2 (List.mem_cons_of_mem _ he2)) e h

lemma listMinZ_append_single (l : List ℤ) (a : ℤ) :
    listMinZ (l ++ [a]) = if l = [] then a else min (listMinZ l) a := by
  cases l with
  | nil => simp [listMinZ]
  | cons x xs => simp [listMinZ, List.cons_append, List.foldl_append]

lemma listMaxZ_append_single (l : List ℤ) (a : ℤ) :
    listMaxZ (l ++ [a]) = if l = [] then a else max (listMaxZ l) a := by
  cases l with
  | nil => simp [listMaxZ]
  | cons x xs => simp [listMaxZ, List.cons_append, List.foldl_append]

lemma foldl_min_le_init (l : List ℤ) (s : ℤ) : l.foldl min s ≤ s := by
  induction l generalizing s with
  | nil => exact le_refl s
  | cons x xs ih => exact le_trans (ih (min s x)) (min_le_left s x)

lemma foldl_max_ge_init (l : List ℤ) (s : ℤ) : s ≤ l.foldl max s := by
  induction l generalizing s with
  | nil => exact le_refl s
  | cons x xs ih => exact le_trans (le_max_left s x) (ih (max s x))

lemma foldl_min_le_mem (l : List ℤ) (s a : ℤ) (h : a ∈ l) : l.foldl min s ≤ a := by
  induction l generalizing s with
  | nil => simp at h
  | cons x xs ih =>
      rcases List.mem_cons.mp h with h1 | h1
      · subst h1
        exact le_trans (foldl_min_le_init xs (min s a)) (min_le_right s a)
      · exact ih (min s x) h1

lemma foldl_max_ge_mem (l : List ℤ) (s a : ℤ) (h : a ∈ l) : a ≤ l.foldl max s := by
  induction l generalizing s with
  | nil => simp at h
  | cons x xs ih =>
      rcases List.mem_cons.mp h with h1 | h1
      · subst h1
        exact le_trans (le_max_right s a) (foldl_max_ge_init xs (max s a))
      · exact ih (max s x) h1

lemma listMinZ_le (l : List ℤ) (a : ℤ) (h : a ∈ l) : listMinZ l ≤ a := by
  cases l with
  | nil => simp at h
  | cons x xs =>
      rcases List.mem_cons.mp h with h1 | h1
      · subst h1
        exact foldl_min_le_init xs a
      · exact foldl_min_le_mem xs x a h1

lemma listMaxZ_ge (l : List ℤ) (a : ℤ) (h : a ∈ l) : a ≤ listMaxZ l := by
  cases l with
  | nil => simp at h
  | cons x xs =>
      rcases List.mem_cons.mp h with h1 | h1
      · subst h1
        exact foldl_max_ge_init xs a
      · exact foldl_max_ge_mem xs x a h1

lemma orInsert_map_proj (f : (ℤ × ℤ) → ℤ) (g : List ((ℤ × ℤ) × ℕ)) (k : ℤ × ℤ) (m : ℕ) :
    (orInsert g k m).map (fun e => f e.1) =
      if k ∈ g.map Prod.fst then g.map (fun e => f e.1)
      else g.map (fun e => f e.1) ++ [f k] := by
  induction g with
  | nil => simp [orInsert]
  | cons e rest ih =>
      obtain ⟨k1, m1⟩ := e
      by_cases hk : k1 = k
      · subst hk
        simp [orInsert]
      · unfold orInsert
        rw [if_neg hk]
        simp only [List.map_cons]
        rw [ih]
        by_cases hmem : k ∈ rest.map Prod.fst
        · rw [if_pos hmem, if_pos (by simp [hmem])]
        · rw [if_neg hmem, if_neg (by simp [List.mem_cons, hmem, Ne.symm hk]),
            List.cons_append]

lemma mem_map_col {g : List ((ℤ × ℤ) × ℕ)} {k : ℤ × ℤ} (h : k ∈ g.map Prod.fst) :
    k.1 ∈ g.map (fun e => e.1.1) ∧ k.2 ∈ g.map (fun e => e.1.2) := by
  rcases List.mem_map.mp h with ⟨e, he, hek⟩
  exact ⟨List.mem_map.mpr ⟨e, he, by rw [hek]⟩, List.mem_map.mpr ⟨e, he, by rw [hek]⟩⟩

lemma trackMin_mem (vals : List ℤ) (a : ℤ) (ha : a ∈ vals) :
    (if a < listMinZ vals then a else listMinZ vals) = listMinZ vals :=
  if_neg (not_lt.mpr (listMinZ_le vals a ha))

lemma trackMax_mem (vals : List ℤ) (a : ℤ) (ha : a ∈ vals) :
    (if a > listMaxZ vals then a else listMaxZ vals) = listMaxZ vals :=
  if_neg (not_lt.mpr (listMaxZ_ge vals a ha))

lemma trackMin_append (vals : List ℤ) (a : ℤ) (ha : a < i32Max) :
    (if a < listMinZ vals then a else listMinZ vals) = listMinZ (vals ++ [a]) := by
  rw [listMinZ_append_single]
  cases vals with
  | nil =>
      have h1 : listMinZ ([] : List ℤ) = i32Max := rfl
      rw [h1, if_pos ha, if_pos rfl]
  | cons x xs =>
      rw [if_neg (List.cons_ne_nil x xs)]
      split_ifs <;> omega

lemma trackMax_append (vals : List ℤ) (a : ℤ) (ha : i32Min < a) :
    (if a > listMaxZ vals then a else listMaxZ vals) = listMaxZ (vals ++ [a]) := by
  rw [listMaxZ_append_single]
  cases vals with
  | nil =>
      have h1 : listMaxZ ([] : List ℤ) = i32Min := rfl
      rw [h1, if_pos ha, if_pos rfl]
  | cons x xs =>
      rw [if_neg (List.cons_ne_nil x xs)]
      split_ifs <;> omega

lemma canvasInv_setPix (c : Canvas) (ix iy : ℤ)
    (hx : i32Min ≤ ix ∧ ix ≤ i32Max) (hy : i32Min ≤ iy ∧ iy ≤ i32Max)
    (hinv : CanvasInv c) : CanvasInv (c.setPix ix iy) := by
  obtain ⟨h1, h2, h3, h4, h5⟩ := hinv
  have krange := get_pixel_map_cell_range ix iy hx hy
  have kmask := get_pixel_map_mask_bounds ix iy
  have hsent1 : (2 : ℤ) ^ 30 < i32Max := by norm_num [i32Max]
  have hsent2 : i32Min < -((2 : ℤ) ^ 30) := by norm_num [i32Min]
  have hcols := orInsert_map_proj (fun p => p.1) c.grid
    ((get_pixel_map ix iy).1.1, (get_pixel_map ix iy).1.2) (get_pixel_map ix iy).2
  have hrows := orInsert_map_proj (fun p => p.2) c.grid
    ((get_pixel_map ix iy).1.1, (get_pixel_map ix iy).1.2) (get_pixel_map ix iy).2
  simp only [Canvas.setPix, CanvasInv]
  rw [hcols, hrows, h1, h2, h3, h4]
  by_cases hmem : ((get_pixel_map ix iy).1.1, (get_pixel_map ix iy).1.2) ∈ c.grid.map Prod.fst
  · have hcc := mem_map_col hmem
    rw [if_pos hmem, if_pos hmem]
    refine ⟨trackMin_mem _ _ hcc.1, trackMax_mem _ _ hcc.1,
      trackMin_mem _ _ hcc.2, trackMax_mem _ _ hcc.2, ?_⟩
    intro e he
    exact orInsert_pres c.grid _ _
      (fun kk => -(2 ^ 30) ≤ kk.1 ∧ kk.1 ≤ 2 ^ 30 ∧ -(2 ^ 30) ≤ kk.2 ∧ kk.2 ≤ 2 ^ 30)
      (fun e2 he2 =>
        ⟨⟨(h5 e2 he2).1, (h5 e2 he2).2.1, (h5 e2 he2).2.2.1, (h5 e2 he2).2.2.2.1⟩,
          (h5 e2 he2).2.2.2.2.1, (h5 e2 he2).2.2.2.2.2⟩)
      ⟨krange.1, krange.2.1, krange.2.2.1, krange.2.2.2⟩ kmask e he |>.elim
      (fun hP hQ => ⟨hP.1, hP.2.1, hP.2.2.1, hP.2.2.2, hQ⟩)
  · rw [if_neg hmem, if_neg hmem]
    refine ⟨trackMin_append _ _ (by omega), trackMax_append _ _ (by omega),
      trackMin_append _ _ (by omega), trackMax_append _ _ (by omega), ?_⟩
    intro e he
    exact orInsert_pres c.grid _ _
      (fun kk => -(2 ^ 30) ≤ kk.1 ∧ kk.1 ≤ 2 ^ 30 ∧ -(2 ^ 30) ≤ kk.2 ∧ kk.2 ≤ 2 ^ 30)
      (fun e2 he2 =>
        ⟨⟨(h5 e2 he2).1, (h5 e2 he2).2.1, (h5 e2 he2).2.2.1, (h5 e2 he2).2.2.2.1⟩,
          (h5 e2 he2).2.2.2.2.1, (h5 e2 he2).2.2.2.2.2⟩)
      ⟨krange.1, krange.2.1, krange.2.2.1, krange.2.2.2⟩ kmask e he |>.elim
      (fun hP hQ => ⟨hP.1, hP.2.1, hP.2.2.1, hP.2.2.2, hQ⟩)

lemma canvasInv_new : CanvasInv Canvas.new :=
  ⟨rfl, rfl, rfl, rfl, fun e he => absurd he (List.not_mem_nil e)⟩

lemma canvasInv_clear (c : Canvas) : CanvasInv (c.clear) := canvasInv_new

lemma canvasInv_set (c : Canvas) (x y : ℚ) (hinv : CanvasInv c) :
    CanvasInv (c.set x y) := by
  rw [Canvas.set]
  exact canvasInv_setPix c _ _ (i32sat_range _) (i32sat_range _) hinv

lemma canvasInv_foldl_set : ∀ (pts : List (ℤ × ℤ)) (c : Canvas), CanvasInv c →
    CanvasInv (pts.foldl (fun c p => c.set (p.1 : ℚ) (p.2 : ℚ)) c)
  | [], _, hinv => hinv
  | p :: rest, c, hinv =>
      canvasInv_foldl_set rest (c.set (p.1 : ℚ) (p.2 : ℚ)) (canvasInv_set c _ _ hinv)

lemma canvasInv_line (c : Canvas) (q1 q2 q3 q4 : ℚ) (hinv : CanvasInv c) :
    CanvasInv (c.line q1 q2 q3 q4) :=
  canvasInv_foldl_set _ c hinv

lemma canvasInv_applyOp (c : Canvas) (op : CanvasOp) (hinv : CanvasInv c) :
    CanvasInv (applyOp c op) := by
  cases op with
  | clear => exact canvasInv_clear c
  | set x y => exact canvasInv_set c x y hinv
  | line x1 y1 x2 y2 => exact canvasInv_line c x1 y1 x2 y2 hinv

lemma canvasInv_foldl_ops : ∀ (ops : List CanvasOp) (c : Canvas), CanvasInv c →
    CanvasInv (ops.foldl applyOp c)
  | [], _, hinv => hinv
  | op :: rest, c, hinv =>
      canvasInv_foldl_ops rest (applyOp c op) (canvasInv_applyOp c op hinv)

lemma canvasInv_runOps (ops : List CanvasOp) : CanvasInv (runOps ops) :=
  canvasInv_foldl_ops ops Canvas.new canvasInv_new

/-- Claim C6: after every sequence of clear/set/line operations on a fresh
rasterizer, the stored bounding rectangle is exactly the minimum and
maximum column and row over the cell addresses present in the sparse
store, and it is the `i32::MAX`/`i32::MIN` empty sentinel exactly when the
store is empty. -/
theorem bounding_rect_exact_after_ops (ops : List CanvasOp) :
    ((runOps ops).min_x = listMinZ ((runOps ops).grid.map (fun e => e.1.1)) ∧
     (runOps ops).max_x = listMaxZ ((runOps ops).grid.map (fun e => e.1.1)) ∧
     (runOps ops).min_y = listMinZ ((runOps ops).grid.map (fun e => e.1.2)) ∧
     (runOps ops).max_y = listMaxZ ((runOps ops).grid.map (fun e => e.1.2))) ∧
    ((runOps ops).min_x = i32Max ∧ (runOps ops).max_x = i32Min ∧
      (runOps ops).min_y = i32Max ∧ (runOps ops).max_y = i32Min ↔
      (runOps ops).grid = []) := by
  obtain ⟨h1, h2, h3, h4, h5⟩ := canvasInv_runOps ops
  refine ⟨⟨h1, h2, h3, h4⟩, ?_, ?_⟩
  · intro hsent
    cases hgrid : (runOps ops).grid with
    | nil => rfl
    | cons e rest =>
        exfalso
        have hmem : e.1.1 ∈ (runOps ops).grid.map (fun e => e.1.1) := by
          rw [hgrid]
          exact List.mem_map.mpr ⟨e, List.mem_cons_self _ _, rfl⟩
        have hle := listMinZ_le _ _ hmem
        have hb := h5 e (by rw [hgrid]; exact List.mem_cons_self _ _)
        rw [← h1] at hle
        rw [hsent.1] at hle
        have : (2 : ℤ) ^ 30 < i32Max := by norm_num [i32Max]
        omega
  · intro hgrid
    rw [hgrid] at h1 h2 h3 h4
    simp only [List.map_nil] at h1 h2 h3 h4
    exact ⟨h1, h2, h3, h4⟩


lemma wrap32_id (n : ℤ) (h1 : -2147483648 ≤ n) (h2 : n < 2147483648) :
    wrap32 n = n := by
  unfold wrap32
  omega

lemma rustRound_three : rustRound (3 : ℚ) = 3 := by
  rw [show (3 : ℚ) = ((3 : ℤ) : ℚ) by norm_num, rustRound_intCast]

lemma bres_reaches (X1 Y1 X2 Y2 dx dy sx sy : ℤ)
    (hxc : (X1 < X2 ∧ sx = 1 ∧ dx = X2 - X1) ∨ (¬ X1 < X2 ∧ sx = -1 ∧ dx = X1 - X2))
    (hyc : (Y1 < Y2 ∧ sy = 1 ∧ dy = -(Y2 - Y1)) ∨ (¬ Y1 < Y2 ∧ sy = -1 ∧ dy = -(Y1 - Y2)))
    (hX1B : -8192 ≤ X1 ∧ X1 ≤ 8192) (hY1B : -8192 ≤ Y1 ∧ Y1 ≤ 8192)
    (hdxB : dx ≤ 16384) (hdyB : -dy ≤ 16384) :
    ∀ (fuel : ℕ) (i j : ℤ), 0 ≤ i → i ≤ dx → 0 ≤ j → j ≤ -dy →
      dx - i + (-dy - j) < (fuel : ℤ) →
      (bresRun X2 Y2 dx dy sx sy fuel (X1 + i * sx) (Y1 + j * sy)
          ((1 + j) * dx + (1 + i) * dy)).2 = true ∧
      (bresRun X2 Y2 dx dy sx sy fuel (X1 + i * sx) (Y1 + j * sy)
          ((1 + j) * dx + (1 + i) * dy)).1.head? = some (X1 + i * sx, Y1 + j * sy) ∧
      (bresRun X2 Y2 dx dy sx sy fuel (X1 + i * sx) (Y1 + j * sy)
          ((1 + j) * dx + (1 + i) * dy)).1.getLast? = some (X2, Y2) := by
  have hdx0 : 0 ≤ dx := by rcases hxc with ⟨h1, h2, h3⟩ | ⟨h1, h2, h3⟩ <;> omega
  have hdy0 : dy ≤ 0 := by rcases hyc with ⟨h1, h2, h3⟩ | ⟨h1, h2, h3⟩ <;> omega
  obtain ⟨hX1a, hX1b⟩ := hX1B
  obtain ⟨hY1a, hY1b⟩ := hY1B
  have hsx2 : sx = 1 ∨ sx = -1 := by
    rcases hxc with ⟨-, h, -⟩ | ⟨-, h, -⟩
    · exact Or.inl h
    · exact Or.inr h
  have hsy2 : sy = 1 ∨ sy = -1 := by
    rcases hyc with ⟨-, h, -⟩ | ⟨-, h, -⟩
    · exact Or.inl h
    · exact Or.inr h
  intro fuel
  induction fuel with
  | zero =>
      intro i j hi0 hidx hj0 hjm hfuel
      exfalso
      push_cast at hfuel
      omega
  | succ n ih =>
      intro i j hi0 hidx hj0 hjm hfuel
      have hxiff : X1 + i * sx = X2 ↔ i = dx := by
        rcases hxc with ⟨h1, h2, h3⟩ | ⟨h1, h2, h3⟩ <;> subst h2 <;>
          constructor <;> intro h <;> omega
      have hyiff : Y1 + j * sy = Y2 ↔ j = -dy := by
        rcases hyc with ⟨h1, h2, h3⟩ | ⟨h1, h2, h3⟩ <;> subst h2 <;>
          constructor <;> intro h <;> omega
      simp only [bresRun]
      by_cases hend : X1 + i * sx = X2 ∧ Y1 + j * sy = Y2
      · rw [if_pos hend]
        refine ⟨rfl, rfl, ?_⟩
        rw [hend.1, hend.2]
        rfl
      · rw [if_neg hend]
        have hnotend : ¬ (i = dx ∧ j = -dy) := fun hcon =>
          hend ⟨hxiff.mpr hcon.1, hyiff.mpr hcon.2⟩
        have hA1 : 0 ≤ (1 + j) * dx := mul_nonneg (by omega) hdx0
        have hA2 : (1 + j) * dx ≤ 268451840 := by
          have h := mul_le_mul (by omega : 1 + j ≤ 16385) hdxB hdx0
            (by norm_num : (0 : ℤ) ≤ 16385)
          norm_num at h
          exact h
        have hB1 : (1 + i) * dy ≤ 0 := by
          have h := mul_le_mul_of_nonneg_left hdy0 (by omega : (0 : ℤ) ≤ 1 + i)
          rw [mul_zero] at h
          exact h
        have hB2 : -268451840 ≤ (1 + i) * dy := by
          have h := mul_le_mul (by omega : 1 + i ≤ 16385) hdyB (by omega : (0 : ℤ) ≤ -dy)
            (by norm_num : (0 : ℤ) ≤ 16385)
          have h2 : (1 + i) * -dy = -((1 + i) * dy) := by ring
          rw [h2] at h
          norm_num at h
          omega
        have we2 : wrap32 (2 * ((1 + j) * dx + (1 + i) * dy)) =
            2 * ((1 + j) * dx + (1 + i) * dy) := wrap32_id _ (by omega) (by omega)
        rw [we2]
        by_cases hxs : dy ≤ 2 * ((1 + j) * dx + (1 + i) * dy)
        · have hilt : i < dx := by
            rcases eq_or_lt_of_le hidx with heq | hlt
            · exfalso
              have hjlt : j < -dy := by
                rcases eq_or_lt_of_le hjm with heq2 | hlt2
                · exact absurd ⟨heq, heq2⟩ hnotend
                · exact hlt2
              have hmpos : 0 < -dy := by omega
              have hmul : (1 + j) * dx ≤ (-dy) * dx :=
                mul_le_mul_of_nonneg_right (by omega) hdx0
              have : 2 * ((1 + j) * dx + (1 + i) * dy) < dy := by
                rw [← heq] at hmul ⊢
                nlinarith [hmul]
              omega
            · exact hlt
          have wx1 : wrap32 (X1 + i * sx + sx) = X1 + i * sx + sx := by
            rcases hsx2 with h | h <;> rw [h] <;> exact wrap32_id _ (by omega) (by omega)
          have werr1 : wrap32 ((1 + j) * dx + (1 + i) * dy + dy) =
              (1 + j) * dx + (1 + i) * dy + dy := wrap32_id _ (by omega) (by omega)
          by_cases hys : 2 * ((1 + j) * dx + (1 + i) * dy) ≤ dx
          · have hjlt : j < -dy := by
              rcases eq_or_lt_of_le hjm with heq2 | hlt2
              · exfalso
                have hmul : (1 + i) * j ≤ dx * j :=
                  mul_le_mul_of_nonneg_right (by omega) hj0
                have hdxpos : 0 < dx := by omega
                have hdyj : dy = -j := by omega
                have : dx < 2 * ((1 + j) * dx + (1 + i) * dy) := by
                  rw [hdyj]
                  nlinarith [hmul]
                omega
              · exact hlt2
            have wy1 : wrap32 (Y1 + j * sy + sy) = Y1 + j * sy + sy := by
              rcases hsy2 with h | h <;> rw [h] <;> exact wrap32_id _ (by omega) (by omega)
            have werr2 : wrap32 ((1 + j) * dx + (1 + i) * dy + dy + dx) =
                (1 + j) * dx + (1 + i) * dy + dy + dx := wrap32_id _ (by omega) (by omega)
            rw [if_pos hxs, if_pos hxs, if_pos hys, if_pos hys, werr1, wx1, wy1, werr2]
            have e1 : X1 + i * sx + sx = X1 + (i + 1) * sx := by ring
            have e2 : Y1 + j * sy + sy = Y1 + (j + 1) * sy := by ring
            have e3 : (1 + j) * dx + (1 + i) * dy + dy + dx =
                (1 + (j + 1)) * dx + (1 + (i + 1)) * dy := by ring
            rw [e1, e2, e3]
            obtain ⟨hb, hh, hl⟩ := ih (i + 1) (j + 1) (by omega) (by omega) (by omega)
              (by omega) (by push_cast at hfuel ⊢; omega)
            refine ⟨hb, rfl, ?_⟩
            cases hrest : (bresRun X2 Y2 dx dy sx sy n (X1 + (i + 1) * sx)
                (Y1 + (j + 1) * sy) ((1 + (j + 1)) * dx + (1 + (i + 1)) * dy)).1 with
            | nil => rw [hrest] at hh; simp at hh
            | cons a t =>
                rw [hrest] at hl
                rw [List.getLast?_cons_cons]
                exact hl
          · rw [if_pos hxs, if_pos hxs, if_neg hys, if_neg hys, werr1, wx1]
            have e1 : X1 + i * sx + sx = X1 + (i + 1) * sx := by ring
            have e3 : (1 + j) * dx + (1 + i) * dy + dy =
                (1 + j) * dx + (1 + (i + 1)) * dy := by ring
            rw [e1, e3]
            obtain ⟨hb, hh, hl⟩ := ih (i + 1) j (by omega) (by omega) hj0 hjm
              (by push_cast at hfuel ⊢; omega)
            refine ⟨hb, rfl, ?_⟩
            cases hrest : (bresRun X2 Y2 dx dy sx sy n (X1 + (i + 1) * sx)
                (Y1 + j * sy) ((1 + j) * dx + (1 + (i + 1)) * dy)).1 with
            | nil => rw [hrest] at hh; simp at hh
            | cons a t =>
                rw [hrest] at hl
                rw [List.getLast?_cons_cons]
                exact hl
        · have hys : 2 * ((1 + j) * dx + (1 + i) * dy) ≤ dx := by
            have h2e : 2 * ((1 + j) * dx + (1 + i) * dy) < dy := by omega
            omega
          have hjlt : j < -dy := by
            rcases eq_or_lt_of_le hjm with heq2 | hlt2
            · exfalso
              have hilt2 : i < dx := by
                rcases eq_or_lt_of_le hidx with heq | hlt
                · exact absurd ⟨heq, heq2⟩ hnotend
                · exact hlt
              have hmul : (1 + i) * j ≤ dx * j :=
                mul_le_mul_of_nonneg_right (by omega) hj0
              have hdxpos : 0 < dx := by omega
              have hdyj : dy = -j := by omega
              have : dx < 2 * ((1 + j) * dx + (1 + i) * dy) := by
                rw [hdyj]
                nlinarith [hmul]
              omega
            · exact hlt2
          have wy1 : wrap32 (Y1 + j * sy + sy) = Y1 + j * sy + sy := by
            rcases hsy2 with h | h <;> rw [h] <;> exact wrap32_id _ (by omega) (by omega)
          have werr2 : wrap32 ((1 + j) * dx + (1 + i) * dy + dx) =
              (1 + j) * dx + (1 + i) * dy + dx := wrap32_id _ (by omega) (by omega)
          rw [if_neg hxs, if_neg hxs, if_pos hys, if_pos hys, werr2, wy1]
          have e2 : Y1 + j * sy + sy = Y1 + (j + 1) * sy := by ring
          have e3 : (1 + j) * dx + (1 + i) * dy + dx =
              (1 + (j + 1)) * dx + (1 + i) * dy := by ring
          rw [e2, e3]
          obtain ⟨hb, hh, hl⟩ := ih i (j + 1) hi0 hidx (by omega) (by omega)
            (by push_cast at hfuel ⊢; omega)
          refine ⟨hb, rfl, ?_⟩
          cases hrest : (bresRun X2 Y2 dx dy sx sy n (X1 + i * sx)
              (Y1 + (j + 1) * sy) ((1 + (j + 1)) * dx + (1 + i) * dy)).1 with
          | nil => rw [hrest] at hh; simp at hh
          | cons a t =>
              rw [hrest] at hl
              rw [List.getLast?_cons_cons]
              exact hl

lemma bounded_bres_completes (X1 Y1 X2 Y2 : ℤ)
    (hX1 : -8192 ≤ X1 ∧ X1 ≤ 8192) (hY1 : -8192 ≤ Y1 ∧ Y1 ≤ 8192)
    (hX2 : -8192 ≤ X2 ∧ X2 ≤ 8192) (hY2 : -8192 ≤ Y2 ∧ Y2 ≤ 8192) :
    let dx := wrapAbs (wrap32 (X2 - X1))
    let dy := wrap32 (-(wrapAbs (wrap32 (Y2 - Y1))))
    let sx : ℤ := if X1 < X2 then 1 else -1
    let sy : ℤ := if Y1 < Y2 then 1 else -1
    let res := bresRun X2 Y2 dx dy sx sy (dx - dy + 1).toNat X1 Y1 (wrap32 (dx + dy))
    res.2 = true ∧ res.1.head? = some (X1, Y1) ∧ res.1.getLast? = some (X2, Y2) ∧
      res.1 ≠ [] := by
  intro dx dy sx sy res
  have habs1 : |X2 - X1| ≤ 16384 := abs_le.mpr ⟨by omega, by omega⟩
  have habs2 : |Y2 - Y1| ≤ 16384 := abs_le.mpr ⟨by omega, by omega⟩
  have habs1n : 0 ≤ |X2 - X1| := abs_nonneg _
  have habs2n : 0 ≤ |Y2 - Y1| := abs_nonneg _
  have hdxe : dx = |X2 - X1| := by
    show wrapAbs (wrap32 (X2 - X1)) = |X2 - X1|
    rw [wrap32_id (X2 - X1) (by omega) (by omega)]
    show wrap32 |X2 - X1| = |X2 - X1|
    exact wrap32_id _ (by omega) (by omega)
  have hdye : dy = -|Y2 - Y1| := by
    show wrap32 (-(wrapAbs (wrap32 (Y2 - Y1)))) = -|Y2 - Y1|
    rw [wrap32_id (Y2 - Y1) (by omega) (by omega)]
    show wrap32 (-(wrap32 |Y2 - Y1|)) = -|Y2 - Y1|
    rw [wrap32_id |Y2 - Y1| (by omega) (by omega)]
    exact wrap32_id _ (by omega) (by omega)
  have hres : res = bresRun X2 Y2 |X2 - X1| (-|Y2 - Y1|) sx sy
      (|X2 - X1| - -|Y2 - Y1| + 1).toNat X1 Y1 (|X2 - X1| + -|Y2 - Y1|) := by
    show bresRun X2 Y2 dx dy sx sy (dx - dy + 1).toNat X1 Y1 (wrap32 (dx + dy)) = _
    rw [hdxe, hdye, wrap32_id (|X2 - X1| + -|Y2 - Y1|) (by omega) (by omega)]
  rw [hres]
  have hxc : (X1 < X2 ∧ sx = 1 ∧ |X2 - X1| = X2 - X1) ∨
      (¬ X1 < X2 ∧ sx = -1 ∧ |X2 - X1| = X1 - X2) := by
    by_cases h : X1 < X2
    · refine Or.inl ⟨h, if_pos h, ?_⟩
      rw [abs_of_pos (by omega)]
    · refine Or.inr ⟨h, if_neg h, ?_⟩
      rw [abs_of_nonpos (by omega)]
      ring
  have hyc : (Y1 < Y2 ∧ sy = 1 ∧ -|Y2 - Y1| = -(Y2 - Y1)) ∨
      (¬ Y1 < Y2 ∧ sy = -1 ∧ -|Y2 - Y1| = -(Y1 - Y2)) := by
    by_cases h : Y1 < Y2
    · refine Or.inl ⟨h, if_pos h, ?_⟩
      rw [abs_of_pos (by omega)]
    · refine Or.inr ⟨h, if_neg h, ?_⟩
      rw [abs_of_nonpos (by omega)]
      ring
  have hfuel : |X2 - X1| - 0 + (-(-|Y2 - Y1|) - 0) <
      (((|X2 - X1| - -|Y2 - Y1| + 1).toNat : ℕ) : ℤ) := by
    rw [Int.toNat_of_nonneg (by omega)]
    omega
  have h := bres_reaches X1 Y1 X2 Y2 |X2 - X1| (-|Y2 - Y1|) sx sy hxc hyc
    ⟨hX1.1, hX1.2⟩ ⟨hY1.1, hY1.2⟩ habs1 (by omega)
    (|X2 - X1| - -|Y2 - Y1| + 1).toNat 0 0 le_rfl habs1n le_rfl (by omega) hfuel
  have hz1 : X1 + 0 * sx = X1 := by ring
  have hz2 : Y1 + 0 * sy = Y1 := by ring
  have hz3 : (1 + 0) * |X2 - X1| + (1 + 0) * -|Y2 - Y1| =
      |X2 - X1| + -|Y2 - Y1| := by ring
  rw [hz1, hz2, hz3] at h
  obtain ⟨hb, hh, hl⟩ := h
  refine ⟨hb, hh, hl, ?_⟩
  intro hnil
  rw [hnil] at hh
  simp at hh

/-- Claim C10 (amended): when the rounded endpoint coordinates lie within
[-8192, 8192] — so that none of the loop's i32 computations can overflow —
the Bresenham loop exits through its `break` within the iteration bound,
the first point it sets is the rounded first endpoint and the last is the
rounded second endpoint (so `set` is called at least once and both
endpoints are included).  The counterexample shows this fails for
saturated out-of-range endpoints, where the wrapped arithmetic pins the
loop state in place. -/
theorem bresenham_loop_terminates_with_endpoints (qx1 qy1 qx2 qy2 : ℚ) (c : Canvas)
    (hb1 : -8192 ≤ i32sat (rustRound qx1) ∧ i32sat (rustRound qx1) ≤ 8192)
    (hb2 : -8192 ≤ i32sat (rustRound qy1) ∧ i32sat (rustRound qy1) ≤ 8192)
    (hb3 : -8192 ≤ i32sat (rustRound qx2) ∧ i32sat (rustRound qx2) ≤ 8192)
    (hb4 : -8192 ≤ i32sat (rustRound qy2) ∧ i32sat (rustRound qy2) ≤ 8192) :
    let X1 := i32sat (rustRound qx1)
    let Y1 := i32sat (rustRound qy1)
    let X2 := i32sat (rustRound qx2)
    let Y2 := i32sat (rustRound qy2)
    let dx := wrapAbs (wrap32 (X2 - X1))
    let dy := wrap32 (-(wrapAbs (wrap32 (Y2 - Y1))))
    let sx : ℤ := if X1 < X2 then 1 else -1
    let sy : ℤ := if Y1 < Y2 then 1 else -1
    let res := bresRun X2 Y2 dx dy sx sy (dx - dy + 1).toNat X1 Y1 (wrap32 (dx + dy))
    res.2 = true ∧ res.1.head? = some (X1, Y1) ∧ res.1.getLast? = some (X2, Y2) ∧
      res.1 ≠ [] ∧
      c.line qx1 qy1 qx2 qy2 =
        res.1.foldl (fun c p => c.set (p.1 : ℚ) (p.2 : ℚ)) c := by
  intro X1 Y1 X2 Y2 dx dy sx sy res
  obtain ⟨hb, hh, hl, hne⟩ := bounded_bres_completes X1 Y1 X2 Y2 hb1 hb2 hb3 hb4
  exact ⟨hb, hh, hl, hne, rfl⟩

/-- Closed instance of the bounded termination theorem at the endpoints
(0, 0)–(3, 1) on a fresh canvas. -/
theorem bresenham_loop_terminates_witness :
    let X1 := i32sat (rustRound (0 : ℚ))
    let Y1 := i32sat (rustRound (0 : ℚ))
    let X2 := i32sat (rustRound (3 : ℚ))
    let Y2 := i32sat (rustRound (1 : ℚ))
    let dx := wrapAbs (wrap32 (X2 - X1))
    let dy := wrap32 (-(wrapAbs (wrap32 (Y2 - Y1))))
    let sx : ℤ := if X1 < X2 then 1 else -1
    let sy : ℤ := if Y1 < Y2 then 1 else -1
    let res := bresRun X2 Y2 dx dy sx sy (dx - dy + 1).toNat X1 Y1 (wrap32 (dx + dy))
    res.2 = true ∧ res.1.head? = some (X1, Y1) ∧ res.1.getLast? = some (X2, Y2) ∧
      res.1 ≠ [] ∧
      Canvas.new.line 0 0 3 1 =
        res.1.foldl (fun c p => c.set (p.1 : ℚ) (p.2 : ℚ)) Canvas.new :=
  bresenham_loop_terminates_with_endpoints 0 0 3 1 Canvas.new
    (by rw [rustRound_zero]; decide) (by rw [rustRound_zero]; decide)
    (by rw [rustRound_three]; decide) (by rw [rustRound_one]; decide)

/-- The wrapped loop state at the saturated endpoints of
`line(3e9, 0, -1, 1)` is a fixed point: no fuel makes the loop break. -/
lemma bres_stuck_saturated (fuel : ℕ) :
    (bresRun (-1) 1 (-2147483648) (-1) (-1) 1 fuel 2147483647 0 2147483647).2 = false := by
  induction fuel with
  | zero => rfl
  | succ n ih =>
      have hstep : bresRun (-1) 1 (-2147483648) (-1) (-1) 1 (n + 1) 2147483647 0 2147483647 =
          ((2147483647, 0) ::
            (bresRun (-1) 1 (-2147483648) (-1) (-1) 1 n 2147483647 0 2147483647).1,
           (bresRun (-1) 1 (-2147483648) (-1) (-1) 1 n 2147483647 0 2147483647).2) := by
        simp only [bresRun]
        rw [if_neg (by decide)]
        have hc1 : ¬ ((-1 : ℤ) ≤ wrap32 (2 * 2147483647)) := by decide
        have hc2 : ¬ (wrap32 (2 * 2147483647) ≤ (-2147483648 : ℤ)) := by decide
        rw [if_neg hc1, if_neg hc2, if_neg hc2]
      rw [hstep]
      exact ih

/-- Counterexample to claim C10 as stated: at the saturated endpoints of
`line(3e9, 0, -1, 1)` (3e9 saturates to `i32::MAX`; the conjuncts compute
the loop set-up exactly as `Canvas.line` does: `dx` wraps to `i32::MIN`
through the overflowing `abs`, and `err` wraps to `i32::MAX`), the
stepping loop never reaches the rounded endpoint: no number of iterations
makes it exit through its `break`. -/
theorem line_loop_never_exits_at_saturated_endpoint :
    i32sat (rustRound (3000000000 : ℚ)) = 2147483647 ∧
    i32sat (rustRound (-1 : ℚ)) = -1 ∧
    i32sat (rustRound (0 : ℚ)) = 0 ∧
    i32sat (rustRound (1 : ℚ)) = 1 ∧
    wrapAbs (wrap32 ((-1) - 2147483647)) = -2147483648 ∧
    wrap32 (-(wrapAbs (wrap32 ((1 : ℤ) - 0)))) = -1 ∧
    (if (2147483647 : ℤ) < -1 then (1 : ℤ) else -1) = -1 ∧
    (if (0 : ℤ) < 1 then (1 : ℤ) else -1) = 1 ∧
    wrap32 ((-2147483648) + -1) = 2147483647 ∧
    ¬ (∃ fuel : ℕ,
        (bresRun (-1) 1 (-2147483648) (-1) (-1) 1 fuel 2147483647 0 2147483647).2 = true) := by
  refine ⟨?_, ?_, ?_, ?_, by decide, by decide, by decide, by decide, by decide, ?_⟩
  · rw [show (3000000000 : ℚ) = ((3000000000 : ℤ) : ℚ) by norm_num, rustRound_intCast]
    decide
  · rw [rustRound_neg_one]
    decide
  · rw [rustRound_zero]
    decide
  · rw [rustRound_one]
    decide
  · rintro ⟨fuel, hf⟩
    rw [bres_stuck_saturated fuel] at hf
    exact Bool.false_ne_true hf

/-- Claim C9 (amended): `clear`, `set` and `frame` never reach a failing
branch for any input — `get_pixel_map` always returns one of the eight
table masks (the `_ => 0` fallback is unreachable), the float-to-`i32`
conversion saturates into the i32 range, and after any operation sequence
every stored mask is a nonzero 8-bit value whose glyph code point
`0x2800 + mask` is a valid character (so `from_u32(..).unwrap_or` never
takes its fallback) — and the `line` loop completes whenever the rounded
endpoint coordinates lie within [-8192, 8192], where its i32 arithmetic
cannot overflow.  The counterexample shows `line`'s loop arithmetic does
overflow i32 at saturated out-of-range endpoints. -/
theorem rasterizer_never_hits_failing_branch (ops : List CanvasOp)
    (qx1 qy1 qx2 qy2 : ℚ)
    (hb1 : -8192 ≤ i32sat (rustRound qx1) ∧ i32sat (rustRound qx1) ≤ 8192)
    (hb2 : -8192 ≤ i32sat (rustRound qy1) ∧ i32sat (rustRound qy1) ≤ 8192)
    (hb3 : -8192 ≤ i32sat (rustRound qx2) ∧ i32sat (rustRound qx2) ≤ 8192)
    (hb4 : -8192 ≤ i32sat (rustRound qy2) ∧ i32sat (rustRound qy2) ≤ 8192) :
    (∀ x y : ℤ, (get_pixel_map x y).2 ∈ maskTable) ∧
    (∀ n : ℤ, i32Min ≤ i32sat n ∧ i32sat n ≤ i32Max) ∧
    (∀ e ∈ (runOps ops).grid,
      0 < e.2 ∧ e.2 < 256 ∧ Nat.isValidChar (0x2800 + e.2)) ∧
    (bresRun (i32sat (rustRound qx2)) (i32sat (rustRound qy2))
      (wrapAbs (wrap32 (i32sat (rustRound qx2) - i32sat (rustRound qx1))))
      (wrap32 (-(wrapAbs (wrap32 (i32sat (rustRound qy2) - i32sat (rustRound qy1))))))
      (if i32sat (rustRound qx1) < i32sat (rustRound qx2) then 1 else -1)
      (if i32sat (rustRound qy1) < i32sat (rustRound qy2) then 1 else -1)
      (wrapAbs (wrap32 (i32sat (rustRound qx2) - i32sat (rustRound qx1))) -
        wrap32 (-(wrapAbs (wrap32 (i32sat (rustRound qy2) - i32sat (rustRound qy1))))) +
        1).toNat
      (i32sat (rustRound qx1)) (i32sat (rustRound qy1))
      (wrap32 (wrapAbs (wrap32 (i32sat (rustRound qx2) - i32sat (rustRound qx1))) +
        wrap32 (-(wrapAbs (wrap32 (i32sat (rustRound qy2) -
          i32sat (rustRound qy1)))))))).2 = true := by
  obtain ⟨-, -, -, -, h5⟩ := canvasInv_runOps ops
  refine ⟨get_pixel_map_mask_mem, i32sat_range, fun e he => ?_, ?_⟩
  · have hb := h5 e he
    exact ⟨hb.2.2.2.2.1, hb.2.2.2.2.2, Or.inl (by omega)⟩
  · exact (bounded_bres_completes (i32sat (rustRound qx1)) (i32sat (rustRound qy1))
      (i32sat (rustRound qx2)) (i32sat (rustRound qy2)) hb1 hb2 hb3 hb4).1

/-- Counterexample to claim C9 as stated: at the saturated endpoints of
`line(3e9, 0, -1, 1)`, the loop's `.abs()` and `2 * err` computations
overflow i32 (a panic under debug overflow checks; the wrapped results
shown here under release semantics), and five wrapped iterations leave the
state unchanged without the loop exiting — `line` is not total for
arbitrary out-of-range coordinates. -/
theorem line_step_arithmetic_overflows :
    i32sat (rustRound (3000000000 : ℚ)) = 2147483647 ∧
    wrap32 ((-1) - 2147483647) = -2147483648 ∧
    wrapAbs (-2147483648) = -2147483648 ∧
    wrapAbs (-2147483648) ≠ |(-2147483648 : ℤ)| ∧
    wrap32 (2 * 2147483647) = -2 ∧
    wrap32 (2 * 2147483647) ≠ 2 * 2147483647 ∧
    (bresRun (-1) 1 (-2147483648) (-1) (-1) 1 5 2147483647 0 2147483647).1 =
      [(2147483647, 0), (2147483647, 0), (2147483647, 0), (2147483647, 0),
        (2147483647, 0)] ∧
    (bresRun (-1) 1 (-2147483648) (-1) (-1) 1 5 2147483647 0 2147483647).2 = false := by
  refine ⟨?_, by decide, by decide, by decide, by decide, by decide, by decide, by decide⟩
  rw [show (3000000000 : ℚ) = ((3000000000 : ℤ) : ℚ) by norm_num, rustRound_intCast]
  decide

/-- Closed instance of the amended totality claim: one `set` operation and
the bounded endpoints (0, 0)–(3, 1). -/
theorem rasterizer_never_hits_failing_branch_witness :
    (∀ x y : ℤ, (get_pixel_map x y).2 ∈ maskTable) ∧
    (∀ n : ℤ, i32Min ≤ i32sat n ∧ i32sat n ≤ i32Max) ∧
    (∀ e ∈ (runOps [CanvasOp.set 1 2]).grid,
      0 < e.2 ∧ e.2 < 256 ∧ Nat.isValidChar (0x2800 + e.2)) ∧
    (bresRun (i32sat (rustRound (3 : ℚ))) (i32sat (rustRound (1 : ℚ)))
      (wrapAbs (wrap32 (i32sat (rustRound (3 : ℚ)) - i32sat (rustRound (0 : ℚ)))))
      (wrap32 (-(wrapAbs (wrap32 (i32sat (rustRound (1 : ℚ)) - i32sat (rustRound (0 : ℚ)))))))
      (if i32sat (rustRound (0 : ℚ)) < i32sat (rustRound (3 : ℚ)) then 1 else -1)
      (if i32sat (rustRound (0 : ℚ)) < i32sat (rustRound (1 : ℚ)) then 1 else -1)
      (wrapAbs (wrap32 (i32sat (rustRound (3 : ℚ)) - i32sat (rustRound (0 : ℚ)))) -
        wrap32 (-(wrapAbs (wrap32 (i32sat (rustRound (1 : ℚ)) - i32sat (rustRound (0 : ℚ)))))) +
        1).toNat
      (i32sat (rustRound (0 : ℚ))) (i32sat (rustRound (0 : ℚ)))
      (wrap32 (wrapAbs (wrap32 (i32sat (rustRound (3 : ℚ)) - i32sat (rustRound (0 : ℚ)))) +
        wrap32 (-(wrapAbs (wrap32 (i32sat (rustRound (1 : ℚ)) -
          i32sat (rustRound (0 : ℚ))))))))).2 = true :=
  rasterizer_never_hits_failing_branch [CanvasOp.set 1 2] 0 0 3 1
    (by rw [rustRound_zero]; decide) (by rw [rustRound_zero]; decide)
    (by rw [rustRound_three]; decide) (by rw [rustRound_one]; decide)

lemma i32sat_idem (n : ℤ) : i32sat (i32sat n) = i32sat n := by
  have h1 : i32Min < i32Max := by norm_num [i32Min, i32Max]
  unfold i32sat
  split_ifs <;> omega

lemma bresRun_one_self (X Y dx dy sx sy err : ℤ) :
    bresRun X Y dx dy sx sy 1 X Y err = ([(X, Y)], true) := by
  show bresRun X Y dx dy sx sy (0 + 1) X Y err = ([(X, Y)], true)
  simp [bresRun]

/-- Claim C7 (amended): the degenerate call `line(x, y, x, y)` produces
exactly the same rasterizer state as a single `set(x, y)` call, on any
canvas (the set-up arithmetic of a zero-length line cannot overflow). -/
theorem degenerate_line_equals_set (c : Canvas) (x y : ℚ) :
    c.line x y x y = c.set x y := by
  unfold Canvas.line
  simp only [sub_self]
  norm_num [wrapAbs, wrap32]
  rw [bresRun_one_self]
  show c.set ((i32sat (rustRound x) : ℤ) : ℚ) ((i32sat (rustRound y) : ℤ) : ℚ) = c.set x y
  rw [Canvas.set, Canvas.set, rustRound_intCast, rustRound_intCast,
    i32sat_idem, i32sat_idem]

lemma foldl_set_eq_setPix (c : Canvas) (pts : List (ℤ × ℤ)) :
    pts.foldl (fun c p => c.set (p.1 : ℚ) (p.2 : ℚ)) c =
      pts.foldl (fun c p => c.setPix (i32sat p.1) (i32sat p.2)) c := by
  have hf : (fun (c : Canvas) (p : ℤ × ℤ) => c.set (p.1 : ℚ) (p.2 : ℚ)) =
      fun (c : Canvas) (p : ℤ × ℤ) => c.setPix (i32sat p.1) (i32sat p.2) := by
    funext c p
    rw [Canvas.set, rustRound_intCast, rustRound_intCast]
  rw [hf]

lemma line_pix (c : Canvas) (qx1 qy1 qx2 qy2 : ℚ) :
    c.line qx1 qy1 qx2 qy2 =
      ((bresRun (i32sat (rustRound qx2)) (i32sat (rustRound qy2))
        (wrapAbs (wrap32 (i32sat (rustRound qx2) - i32sat (rustRound qx1))))
        (wrap32 (-(wrapAbs (wrap32 (i32sat (rustRound qy2) - i32sat (rustRound qy1))))))
        (if i32sat (rustRound qx1) < i32sat (rustRound qx2) then 1 else -1)
        (if i32sat (rustRound qy1) < i32sat (rustRound qy2) then 1 else -1)
        (wrapAbs (wrap32 (i32sat (rustRound qx2) - i32sat (rustRound qx1))) -
          wrap32 (-(wrapAbs (wrap32 (i32sat (rustRound qy2) - i32sat (rustRound qy1))))) +
          1).toNat
        (i32sat (rustRound qx1)) (i32sat (rustRound qy1))
        (wrap32 (wrapAbs (wrap32 (i32sat (rustRound qx2) - i32sat (rustRound qx1))) +
          wrap32 (-(wrapAbs (wrap32 (i32sat (rustRound qy2) -
            i32sat (rustRound qy1)))))))).1).foldl
        (fun c p => c.setPix (i32sat p.1) (i32sat p.2)) c := by
  unfold Canvas.line
  exact foldl_set_eq_setPix c _

/-- Counterexample to claim C7 as stated: `line(0, 3, 4, 4)` and
`line(4, 4, 0, 3)` on a fresh rasterizer do not touch the same set of cell
addresses (the reversed call touches cell (1, 0); the forward call does
not). -/
theorem line_endpoint_swap_cells_differ :
    ¬ (∀ k : ℤ × ℤ,
        k ∈ (Canvas.new.line 0 3 4 4).keys ↔ k ∈ (Canvas.new.line 4 4 0 3).keys) := by
  intro hall
  have h := hall (1, 0)
  rw [show (0 : ℚ) = ((0 : ℤ) : ℚ) by norm_num, show (3 : ℚ) = ((3 : ℤ) : ℚ) by norm_num,
    show (4 : ℚ) = ((4 : ℤ) : ℚ) by norm_num] at h
  rw [line_pix, line_pix] at h
  simp only [rustRound_intCast] at h
  exact absurd h (by decide)
